import Mathlib

/-!
# uMPS event queue (`src/umps/event.cc`)

A shallow embedding of the `Event` / `EventQueue` classes.  Objects live in an
explicit heap of cells addressed by natural numbers; a pointer is an
`Option Nat` (`none` is `NULL`).  Dereferencing a pointer whose cell is free
has no defined result, so every operation that dereferences returns an
`Option`, and loops carry fuel.
-/

namespace Umps

/-! ## Simulated time -/

/-- Modelled from the spec: `TimeStamp` (declared in `umps/time_stamp.h`, which is
not among the sources).  The spec calls it an opaque, totally ordered clock value
used only through comparison and delta-construction; it is modelled as a tick
count. -/
structure TimeStamp where
  ticks : Nat
deriving DecidableEq

/-- Modelled from the spec: the constructor `TimeStamp(ts, inc)`, producing
the base time advanced by the increment. -/
def TimeStamp.advance (ts : TimeStamp) (inc : Nat) : TimeStamp :=
  ⟨ts.ticks + inc⟩

/-- Modelled from the spec: `TimeStamp::LessEq`, the total-order comparison. -/
def TimeStamp.LessEq (a b : TimeStamp) : Bool :=
  decide (a.ticks ≤ b.ticks)

/-! ## Events and the heap -/

/-- The fields of `class Event`; `next` is a pointer. -/
structure Event where
  time : TimeStamp
  intL : Nat
  devNum : Nat
  next : Option Nat
deriving DecidableEq

/-- `Event::Event(ts, inc, il, dev)`. -/
def Event.new (ts : TimeStamp) (inc il dev : Nat) : Event :=
  { time := ts.advance inc, intL := il, devNum := dev, next := none }

/-- `Event::getIntLine`. -/
def Event.getIntLine (e : Event) : Nat := e.intL

/-- `Event::getDevNum`. -/
def Event.getDevNum (e : Event) : Nat := e.devNum

/-- `Event::getTS`. -/
def Event.getTS (e : Event) : TimeStamp := e.time

/-- `Event::Next`. -/
def Event.Next (e : Event) : Option Nat := e.next

/-- `Event::AddBefore(ev)`: `next = ev`. -/
def Event.AddBefore (e : Event) (ev : Option Nat) : Event :=
  { e with next := ev }

/-- The heap: cell `a` holds a live `Event` or is free. -/
abbrev Heap := List (Option Event)

/-- Read the cell at an address; `none` when the cell is free or out of range. -/
def Heap.read : Heap → Nat → Option Event
  | [], _ => none
  | c :: _, 0 => c
  | _ :: m, a + 1 => Heap.read m a

/-- Overwrite the cell at an address, growing the heap when needed. -/
def Heap.write : Heap → Nat → Option Event → Heap
  | [], 0, v => [v]
  | [], a + 1, v => none :: Heap.write [] a v
  | _ :: m, 0, v => v :: m
  | c :: m, a + 1, v => c :: Heap.write m a v

/-- The address handed out by `new`: the first free cell (freed cells are reused). -/
def Heap.fresh : Heap → Nat
  | [] => 0
  | none :: _ => 0
  | some _ :: m => Heap.fresh m + 1

/-- `Event::InsAfter(ev)` run on the object at address `self`:
`next = ev->next; ev->next = this;`. -/
def InsAfter (m : Heap) (self ev : Nat) : Option Heap := do
  let s ← m.read self
  let e ← m.read ev
  let m1 := m.write self (some { s with next := e.next })
  let e1 ← m1.read ev
  some (m1.write ev (some { e1 with next := some self }))

/-! ## The queue -/

/-- The fields of `class EventQueue`, together with the heap its nodes live in. -/
structure EventQueue where
  mem : Heap
  head : Option Nat
  lastIns : Option Nat
deriving DecidableEq

/-- `EventQueue::EventQueue()`. -/
def EventQueue.empty : EventQueue :=
  { mem := [], head := none, lastIns := none }

/-- `EventQueue::IsEmptyQ`. -/
def EventQueue.IsEmptyQ (Q : EventQueue) : Bool :=
  match Q.head with
  | none => true
  | some _ => false

/-- `EventQueue::getHTS`; the inner `none` is the `NULL` result. -/
def EventQueue.getHTS (Q : EventQueue) : Option (Option TimeStamp) :=
  match Q.head with
  | some h => (Q.mem.read h).map (fun e => some e.getTS)
  | none => some none

/-- `EventQueue::getHIntLine`. -/
def EventQueue.getHIntLine (Q : EventQueue) : Option Nat :=
  match Q.head with
  | some h => (Q.mem.read h).map Event.getIntLine
  | none => some 0

/-- `EventQueue::getHDevNum`. -/
def EventQueue.getHDevNum (Q : EventQueue) : Option Nat :=
  match Q.head with
  | some h => (Q.mem.read h).map Event.getDevNum
  | none => some 0

/-- The `while` loop of `InsertQ`:
`while (p != NULL && p->getTS()->LessEq(ins->getTS())) { q = p; p = p->Next(); }`.
Returns the final `(p, q)`. -/
def walk : Nat → Heap → TimeStamp → Option Nat → Nat → Option (Option Nat × Nat)
  | 0, _, _, _, _ => none
  | _ + 1, _, _, none, q => some (none, q)
  | fuel + 1, m, t, some p, q =>
    match m.read p with
    | none => none
    | some e =>
      if e.getTS.LessEq t then walk fuel m t e.Next p
      else some (some p, q)

/-- The anchor choice of `InsertQ`:
`if (lastIns != NULL && !(ins->getTS()->LessEq(lastIns->getTS()))) p = lastIns; else p = head;`. -/
def anchor (m : Heap) (t : TimeStamp) (lastIns : Option Nat) (head : Nat) : Option Nat :=
  match lastIns with
  | none => some head
  | some l =>
    match m.read l with
    | none => none
    | some le => if !(t.LessEq le.getTS) then some l else some head

/-- `EventQueue::InsertQ(ts, inc, il, dev)`.  The walk gets fuel for one more step
than the heap has cells; `none` results from dereferencing a free cell or from a
walk that does not end (a cyclic chain). -/
def EventQueue.InsertQ (Q : EventQueue) (ts : TimeStamp) (inc il dev : Nat) :
    Option (EventQueue × TimeStamp) :=
  let ins := Q.mem.fresh
  let ev := Event.new ts inc il dev
  let m := Q.mem.write ins (some ev)
  match Q.head with
  | none => some ({ mem := m, head := some ins, lastIns := some ins }, ev.getTS)
  | some h =>
    match m.read h with
    | none => none
    | some hd =>
      if ev.getTS.LessEq hd.getTS then
        some ({ mem := m.write ins (some (ev.AddBefore (some h))),
                head := some ins, lastIns := some ins }, ev.getTS)
      else
        match anchor m ev.getTS Q.lastIns h with
        | none => none
        | some p =>
          match walk (m.length + 1) m ev.getTS (some p) p with
          | none => none
          | some (_, q) =>
            match InsAfter m ins q with
            | none => none
            | some m2 => some ({ mem := m2, head := some h, lastIns := some ins }, ev.getTS)

/-- `EventQueue::RemoveHead`. -/
def EventQueue.RemoveHead (Q : EventQueue) : Option EventQueue :=
  match Q.head with
  | none => some Q
  | some p =>
    match Q.mem.read p with
    | none => none
    | some e =>
      let head := e.Next
      let lastIns := if some p = Q.lastIns then head else Q.lastIns
      some { mem := Q.mem.write p none, head := head, lastIns := lastIns }

/-! ## Operation sequences and the observable chain -/

/-- A call made by the bus on the queue. -/
inductive Op where
  | insert (ts : TimeStamp) (inc il dev : Nat)
  | removeHead
deriving DecidableEq

/-- Perform one call. -/
def step (Q : EventQueue) : Op → Option EventQueue
  | Op.insert ts inc il dev => (Q.InsertQ ts inc il dev).map Prod.fst
  | Op.removeHead => Q.RemoveHead

/-- Perform a sequence of calls, first to last. -/
def run : List Op → EventQueue → Option EventQueue
  | [], Q => some Q
  | op :: ops, Q => (step Q op).bind (run ops)

/-- Follow `next` from `p` until `NULL`, collecting each node's address and contents. -/
def nodesFrom : Nat → Heap → Option Nat → Option (List (Nat × Event))
  | 0, _, _ => none
  | _ + 1, _, none => some []
  | fuel + 1, m, some a =>
    match m.read a with
    | none => none
    | some e => (nodesFrom fuel m e.next).map (fun l => (a, e) :: l)

/-- The chain reachable from `head` via `next`; `none` when the walk meets a free
cell or does not reach `NULL` within the size of the heap. -/
def EventQueue.nodes (Q : EventQueue) : Option (List (Nat × Event)) :=
  nodesFrom (Q.mem.length + 1) Q.mem Q.head

/-- What the bus can observe of an event: time, interrupt line, device number. -/
def Event.view (e : Event) : TimeStamp × Nat × Nat := (e.time, e.intL, e.devNum)

/-- Adjacent times are in `LessEq` order. -/
def NonDecreasing : List TimeStamp → Bool
  | a :: b :: l => a.LessEq b && NonDecreasing (b :: l)
  | _ => true

/-- Identity and payload of a node: its address, time, interrupt line and device
number (everything but the `next` link). -/
def nodeData (c : Nat × Event) : Nat × TimeStamp × Nat × Nat :=
  (c.1, c.2.time, c.2.intL, c.2.devNum)

/-- An insert request: base time, increment, interrupt line, device number. -/
structure Request where
  ts : TimeStamp
  inc : Nat
  il : Nat
  dev : Nat
deriving DecidableEq

/-- The `InsertQ` call a request stands for. -/
def Request.op (r : Request) : Op := Op.insert r.ts r.inc r.il r.dev

/-- The (time, line, device) triple a request schedules. -/
def Request.triple (r : Request) : TimeStamp × Nat × Nat := (r.ts.advance r.inc, r.il, r.dev)

/-- The dispatch loop of the bus: while the queue is not empty, read
`getHTS`, `getHIntLine`, `getHDevNum`, then call `RemoveHead`. -/
def drain : Nat → EventQueue → Option (List (TimeStamp × Nat × Nat))
  | 0, _ => none
  | fuel + 1, Q =>
    if Q.IsEmptyQ then some []
    else
      match Q.getHTS, Q.getHIntLine, Q.getHDevNum, Q.RemoveHead with
      | some (some t), some il, some dev, some Q2 =>
        (drain fuel Q2).map (fun out => (t, il, dev) :: out)
      | _, _, _, _ => none

/-- Reference insertion that ignores `lastIns`: `InsertQ` with the walk always
started from `head`. -/
def EventQueue.InsertQ_fromHead (Q : EventQueue) (ts : TimeStamp) (inc il dev : Nat) :
    Option (EventQueue × TimeStamp) :=
  let ins := Q.mem.fresh
  let ev := Event.new ts inc il dev
  let m := Q.mem.write ins (some ev)
  match Q.head with
  | none => some ({ mem := m, head := some ins, lastIns := some ins }, ev.getTS)
  | some h =>
    match m.read h with
    | none => none
    | some hd =>
      if ev.getTS.LessEq hd.getTS then
        some ({ mem := m.write ins (some (ev.AddBefore (some h))),
                head := some ins, lastIns := some ins }, ev.getTS)
      else
        match walk (m.length + 1) m ev.getTS (some h) h with
        | none => none
        | some (_, q) =>
          match InsAfter m ins q with
          | none => none
          | some m2 => some ({ mem := m2, head := some h, lastIns := some ins }, ev.getTS)

/-- Perform one call, inserting with the reference insertion. -/
def stepRef (Q : EventQueue) : Op → Option EventQueue
  | Op.insert ts inc il dev => (Q.InsertQ_fromHead ts inc il dev).map Prod.fst
  | Op.removeHead => Q.RemoveHead

/-- Perform a sequence of calls with the reference insertion. -/
def runRef : List Op → EventQueue → Option EventQueue
  | [], Q => some Q
  | op :: ops, Q => (stepRef Q op).bind (runRef ops)

/-- Number of `InsertQ` calls in a sequence. -/
def countIns : List Op → Nat
  | [] => 0
  | Op.insert _ _ _ _ :: ops => countIns ops + 1
  | Op.removeHead :: ops => countIns ops

/-- Number of `RemoveHead` calls in a sequence. -/
def countRem : List Op → Nat
  | [] => 0
  | Op.insert _ _ _ _ :: ops => countRem ops
  | Op.removeHead :: ops => countRem ops + 1

/-- The chain starting at pointer `p` in heap `m` is exactly the list `l` of
(address, contents) pairs, ending at `NULL`. -/
def IsChain (m : Heap) : Option Nat → List (Nat × Event) → Prop
  | p, [] => p = none
  | p, c :: l => p = some c.1 ∧ m.read c.1 = some c.2 ∧ IsChain m c.2.next l

/-- Pointer to the first node of a list of nodes. -/
def headPtr (l : List (Nat × Event)) : Option Nat := l.head?.map Prod.fst

/-- The last address of a list, or `q` when the list is empty. -/
def lastOr : List Nat → Nat → Nat
  | [], q => q
  | a :: l, _ => lastOr l a

/-- The loop condition of the walk, as a predicate on a node. -/
def notAfter (t : TimeStamp) (c : Nat × Event) : Bool := c.2.getTS.LessEq t

/-- Set the `next` field of the last node of a list. -/
def setLastNext (ins : Nat) : List (Nat × Event) → List (Nat × Event)
  | [] => []
  | [c] => [(c.1, { c.2 with next := some ins })]
  | c :: d :: l => c :: setLastNext ins (d :: l)

/-- The chain that results from placing a new node with address `ins` and
contents `ev` into the chain `l`: the three cases of `InsertQ`. -/
def insNodes (ins : Nat) (ev : Event) : List (Nat × Event) → List (Nat × Event)
  | [] => [(ins, ev)]
  | c :: r =>
    if ev.getTS.LessEq c.2.getTS then (ins, ev.AddBefore (some c.1)) :: c :: r
    else setLastNext ins ((c :: r).takeWhile (notAfter ev.getTS)) ++
      (ins, { ev with next := headPtr ((c :: r).dropWhile (notAfter ev.getTS)) }) ::
        (c :: r).dropWhile (notAfter ev.getTS)

/-- The representation invariant: `l` is the chain from `head`, times are in
order along it, and `lastIns` is `NULL` only with an empty chain and otherwise
points into the chain. -/
structure Inv (Q : EventQueue) (l : List (Nat × Event)) : Prop where
  chain : IsChain Q.mem Q.head l
  sorted : l.Pairwise (fun c d => c.2.time.ticks ≤ d.2.time.ticks)
  last_none : Q.lastIns = none → l = []
  last_mem : ∀ a, Q.lastIns = some a → a ∈ l.map Prod.fst

/-- The loop of `EventQueue::~EventQueue`:
`while (p != NULL) { q = p->Next(); delete p; p = q; }`.
Returns the heap afterwards and the addresses deleted, in order.  Reading or
deleting a cell that is already free has no defined result. -/
def destroyLoop : Nat → Heap → Option Nat → Option (Heap × List Nat)
  | 0, _, _ => none
  | _ + 1, m, none => some (m, [])
  | fuel + 1, m, some p =>
    match m.read p with
    | none => none
    | some e =>
      let q := e.Next
      (destroyLoop fuel (m.write p none) q).map (fun r => (r.1, p :: r.2))

/-- `EventQueue::~EventQueue`, started with `p = head`. -/
def EventQueue.destroy (Q : EventQueue) : Option (Heap × List Nat) :=
  destroyLoop (Q.mem.length + 1) Q.mem Q.head

/-- The number of times the body of the walk loop of `InsertQ` runs (the loop of
`walk`, counting `q = p; p = p->Next();`). -/
def walkBodyCount : Nat → Heap → TimeStamp → Option Nat → Option Nat
  | 0, _, _, _ => none
  | _ + 1, _, _, none => some 0
  | fuel + 1, m, t, some p =>
    match m.read p with
    | none => none
    | some e =>
      if e.getTS.LessEq t then (walkBodyCount fuel m t e.Next).map (fun n => n + 1)
      else some 0

/-- The times scheduled by the `InsertQ` calls of a sequence, in call order. -/
def insertTimes : List Op → List Nat
  | [] => []
  | Op.insert ts inc _ _ :: ops => (ts.advance inc).ticks :: insertTimes ops
  | Op.removeHead :: ops => insertTimes ops

/-- Pointer to the last node of a list of nodes. -/
def lastPtr (l : List (Nat × Event)) : Option Nat := l.getLast?.map Prod.fst

/-! ## Heap lemmas -/

theorem read_nil (a : Nat) : Heap.read [] a = none := by
  cases a <;> rfl

theorem read_write_same (m : Heap) (a : Nat) (v : Option Event) :
    (m.write a v).read a = v := by
  induction a generalizing m with
  | zero => cases m <;> rfl
  | succ a ih =>
    cases m with
    | nil => exact ih []
    | cons c m => exact ih m

theorem read_write_other (m : Heap) (a b : Nat) (v : Option Event) (h : b ≠ a) :
    (m.write a v).read b = m.read b := by
  induction a generalizing m b with
  | zero =>
    cases b with
    | zero => exact absurd rfl h
    | succ b => cases m <;> simp [Heap.write, Heap.read, read_nil]
  | succ a ih =>
    cases b with
    | zero => cases m <;> simp [Heap.write, Heap.read]
    | succ b =>
      have hb : b ≠ a := fun hba => h (by rw [hba])
      cases m with
      | nil => simpa [Heap.write, Heap.read, read_nil] using ih [] b hb
      | cons c m => simpa [Heap.write, Heap.read] using ih m b hb

theorem read_fresh (m : Heap) : m.read m.fresh = none := by
  induction m with
  | nil => rfl
  | cons c m ih =>
    cases c with
    | none => rfl
    | some e => simpa [Heap.fresh, Heap.read] using ih

theorem read_lt_length (m : Heap) (a : Nat) (e : Event) (h : m.read a = some e) :
    a < m.length := by
  induction m generalizing a with
  | nil => simp [read_nil] at h
  | cons c m ih =>
    cases a with
    | zero => simp
    | succ a => simpa using ih a (by simpa [Heap.read] using h)

/-! ## Chains -/

theorem isChain_nodesFrom (m : Heap) (fuel : Nat) (p : Option Nat) (l : List (Nat × Event))
    (h : IsChain m p l) (hf : l.length < fuel) : nodesFrom fuel m p = some l := by
  induction l generalizing p fuel with
  | nil =>
    cases fuel with
    | zero => simp at hf
    | succ fuel => simp only [IsChain] at h; subst h; rfl
  | cons c l ih =>
    cases fuel with
    | zero => simp at hf
    | succ fuel =>
      obtain ⟨hp, hr, hc⟩ := h
      subst hp
      have := ih fuel _ hc (by simpa using hf)
      simp [nodesFrom, hr, this]

theorem nodesFrom_isChain (m : Heap) (fuel : Nat) (p : Option Nat) (l : List (Nat × Event))
    (h : nodesFrom fuel m p = some l) : IsChain m p l := by
  induction fuel generalizing p l with
  | zero => simp [nodesFrom] at h
  | succ fuel ih =>
    cases p with
    | none =>
      simp [nodesFrom] at h
      subst h
      rfl
    | some a =>
      simp only [nodesFrom] at h
      cases hr : m.read a with
      | none => simp [hr] at h
      | some e =>
        simp only [hr, Option.map_eq_some'] at h
        obtain ⟨l1, h1, rfl⟩ := h
        exact ⟨rfl, hr, ih _ _ h1⟩

theorem isChain_unique (m : Heap) (p : Option Nat) (l1 l2 : List (Nat × Event))
    (h1 : IsChain m p l1) (h2 : IsChain m p l2) : l1 = l2 := by
  induction l1 generalizing p l2 with
  | nil =>
    cases l2 with
    | nil => rfl
    | cons c l2 =>
      simp only [IsChain] at h1
      obtain ⟨hp, -, -⟩ := h2
      rw [h1] at hp
      cases hp
  | cons c l1 ih =>
    obtain ⟨hp, hr, hc⟩ := h1
    cases l2 with
    | nil =>
      simp only [IsChain] at h2
      rw [h2] at hp
      cases hp
    | cons d l2 =>
      obtain ⟨hp2, hr2, hc2⟩ := h2
      rw [hp] at hp2
      have h1 : c.1 = d.1 := by injection hp2
      rw [← h1, hr] at hr2
      have h2 : c.2 = d.2 := by injection hr2
      have hcd : c = d := Prod.ext h1 h2
      subst hcd
      rw [ih _ _ hc hc2]

theorem isChain_headPtr (m : Heap) (p : Option Nat) (l : List (Nat × Event))
    (h : IsChain m p l) : p = headPtr l := by
  cases l with
  | nil => exact h
  | cons c l => exact h.1

theorem isChain_suffix (m : Heap) (p : Option Nat) (l1 l2 : List (Nat × Event))
    (h : IsChain m p (l1 ++ l2)) : IsChain m (headPtr l2) l2 := by
  induction l1 generalizing p with
  | nil =>
    rw [← isChain_headPtr m p l2 h]
    exact h
  | cons c l1 ih => exact ih _ h.2.2

theorem isChain_mem_read (m : Heap) (p : Option Nat) (l : List (Nat × Event))
    (h : IsChain m p l) (c : Nat × Event) (hc : c ∈ l) : m.read c.1 = some c.2 := by
  induction l generalizing p with
  | nil => simp at hc
  | cons d l ih =>
    rcases List.mem_cons.1 hc with rfl | hc
    · exact h.2.1
    · exact ih _ h.2.2 hc

theorem isChain_frame (m : Heap) (p : Option Nat) (l : List (Nat × Event))
    (a : Nat) (v : Option Event)
    (h : IsChain m p l) (ha : a ∉ l.map Prod.fst) : IsChain (m.write a v) p l := by
  induction l generalizing p with
  | nil => exact h
  | cons c l ih =>
    simp only [List.map_cons, List.mem_cons, not_or] at ha
    refine ⟨h.1, ?_, ih _ h.2.2 ha.2⟩
    rw [read_write_other _ _ _ _ (Ne.symm ha.1)]
    exact h.2.1

theorem isChain_nodup (m : Heap) (p : Option Nat) (l : List (Nat × Event))
    (h : IsChain m p l) : (l.map Prod.fst).Nodup := by
  induction l generalizing p with
  | nil => simp
  | cons c l ih =>
    obtain ⟨-, hr, hc⟩ := h
    simp only [List.map_cons, List.nodup_cons]
    refine ⟨?_, ih _ hc⟩
    intro hmem
    obtain ⟨d, hd, hd1⟩ := List.mem_map.1 hmem
    obtain ⟨l1, l2, rfl⟩ := List.append_of_mem hd
    have hs := isChain_suffix m _ l1 (d :: l2) hc
    obtain ⟨-, hr2, hc2⟩ := hs
    rw [hd1, hr] at hr2
    have hcd : c.2 = d.2 := by injection hr2
    rw [← hcd] at hc2
    have := isChain_unique m _ _ _ hc hc2
    have hlen := congrArg List.length this
    simp at hlen
    omega

theorem nodup_lt_length_le (l : List Nat) (n : Nat) (hn : l.Nodup) (hl : ∀ a ∈ l, a < n) :
    l.length ≤ n := by
  have h1 : l.toFinset ⊆ Finset.range n := by
    intro a ha
    simp only [List.mem_toFinset] at ha
    simpa using hl a ha
  have h2 := Finset.card_le_card h1
  rw [List.toFinset_card_of_nodup hn] at h2
  simpa using h2

theorem isChain_length_le (m : Heap) (p : Option Nat) (l : List (Nat × Event))
    (h : IsChain m p l) : l.length ≤ m.length := by
  have h1 := nodup_lt_length_le (l.map Prod.fst) m.length (isChain_nodup m p l h) (by
    intro a ha
    obtain ⟨c, hc, rfl⟩ := List.mem_map.1 ha
    exact read_lt_length m c.1 c.2 (isChain_mem_read m p l h c hc))
  simpa using h1

/-- On a valid chain the fuel given by the heap size suffices to read it off. -/
theorem isChain_nodes (Q : EventQueue) (l : List (Nat × Event))
    (h : IsChain Q.mem Q.head l) : Q.nodes = some l :=
  isChain_nodesFrom _ _ _ _ h (Nat.lt_succ_of_le (isChain_length_le _ _ _ h))

theorem nodes_isChain (Q : EventQueue) (l : List (Nat × Event))
    (h : Q.nodes = some l) : IsChain Q.mem Q.head l :=
  nodesFrom_isChain _ _ _ _ h

/-! ## The walk -/

theorem walk_chain (m : Heap) (t : TimeStamp) (fuel : Nat) (p : Option Nat) (q : Nat)
    (l : List (Nat × Event)) (h : IsChain m p l) (hf : l.length < fuel) :
    walk fuel m t p q =
      some (headPtr (l.dropWhile (notAfter t)),
            lastOr ((l.takeWhile (notAfter t)).map Prod.fst) q) := by
  induction l generalizing p q fuel with
  | nil =>
    cases fuel with
    | zero => simp at hf
    | succ fuel => simp only [IsChain] at h; subst h; rfl
  | cons c l ih =>
    cases fuel with
    | zero => simp at hf
    | succ fuel =>
      obtain ⟨hp, hr, hc⟩ := h
      subst hp
      have := ih fuel _ c.1 hc (by simpa using hf)
      by_cases hle : notAfter t c = true
      · have hle2 : c.2.getTS.LessEq t = true := hle
        simp only [walk, hr, hle2, Event.Next, this, List.takeWhile_cons, List.dropWhile_cons,
          hle, if_true, List.map_cons]
        rfl
      · have hle2 : ¬ c.2.getTS.LessEq t = true := hle
        simp [walk, hr, hle2, List.takeWhile_cons, List.dropWhile_cons, hle, headPtr, lastOr]

/-! ## Splicing a node after another -/

theorem insAfter_eq (m : Heap) (ins q : Nat) (ev qe : Event)
    (hins : m.read ins = some ev) (hq : m.read q = some qe) (hne : q ≠ ins) :
    InsAfter m ins q =
      some ((m.write ins (some { ev with next := qe.next })).write q
        (some { qe with next := some ins })) := by
  simp [InsAfter, hins, hq, read_write_other _ _ _ _ hne]

theorem insAfter_chain (m : Heap) (p : Option Nat) (A B : List (Nat × Event))
    (q ins : Nat) (qe ev : Event)
    (h : IsChain m p (A ++ (q, qe) :: B))
    (hfresh : ins ∉ (A ++ (q, qe) :: B).map Prod.fst) :
    IsChain ((m.write ins (some { ev with next := qe.next })).write q
        (some { qe with next := some ins })) p
      (A ++ (q, { qe with next := some ins }) :: (ins, { ev with next := qe.next }) :: B) := by
  have hnd := isChain_nodup m p _ h
  induction A generalizing p with
  | nil =>
    simp only [List.nil_append] at h hfresh hnd ⊢
    obtain ⟨hp, hr, hc⟩ := h
    simp only [List.map_cons, List.mem_cons, not_or] at hfresh
    simp only [List.map_cons, List.nodup_cons] at hnd
    have hne : ins ≠ q := hfresh.1
    refine ⟨hp, read_write_same _ _ _, rfl, ?_, ?_⟩
    · rw [read_write_other _ _ _ _ hne, read_write_same]
    · exact isChain_frame _ _ _ _ _ (isChain_frame _ _ _ _ _ hc hfresh.2) hnd.1
  | cons c A ih =>
    obtain ⟨hp, hr, hc⟩ := h
    simp only [List.cons_append, List.map_cons, List.mem_cons, not_or] at hfresh
    simp only [List.cons_append, List.map_cons, List.nodup_cons] at hnd
    have hq : c.1 ≠ q := by
      intro hcq
      apply hnd.1
      rw [hcq]
      simp
    refine ⟨hp, ?_, ih _ hc hfresh.2 hnd.2⟩
    rw [read_write_other _ _ _ _ hq, read_write_other _ _ _ _ (Ne.symm hfresh.1)]
    exact hr

/-! ## Where the walk stops -/

theorem takeDrop_front (t : TimeStamp) (pre rest : List (Nat × Event)) (c : Nat × Event)
    (hpre : ∀ x ∈ pre, notAfter t x = true) (d d2 : Nat) :
    (pre ++ c :: rest).dropWhile (notAfter t) = (c :: rest).dropWhile (notAfter t) ∧
    (notAfter t c = true →
      lastOr (((pre ++ c :: rest).takeWhile (notAfter t)).map Prod.fst) d =
        lastOr (((c :: rest).takeWhile (notAfter t)).map Prod.fst) d2) := by
  induction pre generalizing d with
  | nil =>
    refine ⟨rfl, fun hc => ?_⟩
    simp only [List.nil_append, List.takeWhile_cons, hc, if_true, List.map_cons]
    rfl
  | cons x pre ih =>
    have hx : notAfter t x = true := hpre x (by simp)
    have ih2 := ih (fun y hy => hpre y (by simp [hy])) x.1
    refine ⟨?_, fun hc => ?_⟩
    · rw [List.cons_append, List.dropWhile_cons_of_pos hx]
      exact ih2.1
    · rw [List.cons_append, List.takeWhile_cons_of_pos hx, List.map_cons]
      exact ih2.2 hc

theorem walk_mid (m : Heap) (t : TimeStamp) (fuel : Nat) (p : Option Nat)
    (pre post : List (Nat × Event)) (c : Nat × Event) (d : Nat)
    (h : IsChain m p (pre ++ c :: post))
    (hpre : ∀ x ∈ pre, notAfter t x = true) (hc : notAfter t c = true)
    (hf : (pre ++ c :: post).length < fuel) :
    walk fuel m t (some c.1) c.1 =
      some (headPtr ((pre ++ c :: post).dropWhile (notAfter t)),
            lastOr (((pre ++ c :: post).takeWhile (notAfter t)).map Prod.fst) d) := by
  have hs := isChain_suffix m p pre (c :: post) h
  have hw := walk_chain m t fuel _ c.1 _ hs (by
    simp only [List.length_append] at hf
    omega)
  have htd := takeDrop_front t pre post c hpre d c.1
  rw [htd.1, htd.2 hc]
  exact hw

theorem last_decomp (ins d : Nat) (X : List (Nat × Event)) (hX : X ≠ []) :
    ∃ A c, X = A ++ [c] ∧ lastOr (X.map Prod.fst) d = c.1 ∧
      setLastNext ins X = A ++ [(c.1, { c.2 with next := some ins })] := by
  induction X generalizing d with
  | nil => exact absurd rfl hX
  | cons x X ih =>
    cases X with
    | nil => exact ⟨[], x, rfl, rfl, rfl⟩
    | cons y X =>
      obtain ⟨A, c, h1, h2, h3⟩ := ih x.1 (by simp)
      refine ⟨x :: A, c, by rw [h1]; rfl, ?_, ?_⟩
      · simpa [lastOr] using h2
      · simp only [setLastNext, List.cons_append]
        rw [h3]

theorem anchor_spec (m : Heap) (t : TimeStamp) (lastIns : Option Nat)
    (c : Nat × Event) (r : List (Nat × Event))
    (hch : IsChain m (some c.1) (c :: r))
    (hsort : (c :: r).Pairwise (fun c d => c.2.time.ticks ≤ d.2.time.ticks))
    (hlast : ∀ a, lastIns = some a → a ∈ (c :: r).map Prod.fst)
    (hlt : ¬ t.LessEq c.2.getTS = true) :
    ∃ pre s post, anchor m t lastIns c.1 = some s.1 ∧ c :: r = pre ++ s :: post ∧
      (∀ x ∈ pre, notAfter t x = true) ∧ notAfter t s = true := by
  have hhead : notAfter t c = true := by
    simp only [TimeStamp.LessEq, Event.getTS, decide_eq_true_eq, notAfter] at hlt ⊢
    omega
  cases lastIns with
  | none => exact ⟨[], c, r, rfl, rfl, by simp, hhead⟩
  | some a =>
    obtain ⟨s, hs, rfl⟩ := List.mem_map.1 (hlast a rfl)
    have hr := isChain_mem_read m _ _ hch s hs
    by_cases hle : t.LessEq s.2.getTS = true
    · refine ⟨[], c, r, ?_, rfl, by simp, hhead⟩
      simp [anchor, hr, hle]
    · obtain ⟨pre, post, hl⟩ := List.append_of_mem hs
      refine ⟨pre, s, post, ?_, hl, ?_, ?_⟩
      · simp [anchor, hr, hle]
      · intro x hx
        rw [hl, List.pairwise_append] at hsort
        have := hsort.2.2 x hx s (by simp)
        simp only [TimeStamp.LessEq, Event.getTS, decide_eq_true_eq, notAfter] at hle ⊢
        omega
      · simp only [TimeStamp.LessEq, Event.getTS, decide_eq_true_eq, notAfter] at hle ⊢
        omega

theorem insAfter_canon (m : Heap) (t : TimeStamp) (p : Option Nat) (l : List (Nat × Event))
    (ins d : Nat) (ev : Event)
    (hch : IsChain m p l) (hne : l.takeWhile (notAfter t) ≠ [])
    (hins : m.read ins = some ev) (hfresh : ins ∉ l.map Prod.fst) :
    ∃ m2, InsAfter m ins (lastOr ((l.takeWhile (notAfter t)).map Prod.fst) d) = some m2 ∧
      IsChain m2 p (setLastNext ins (l.takeWhile (notAfter t)) ++
        (ins, { ev with next := headPtr (l.dropWhile (notAfter t)) }) ::
          l.dropWhile (notAfter t)) := by
  obtain ⟨A, c, hX, hlast, hset⟩ := last_decomp ins d _ hne
  have hl := List.takeWhile_append_dropWhile (notAfter t) l
  rw [hset, hlast]
  generalize l.dropWhile (notAfter t) = B at hl ⊢
  rw [hX] at hl
  clear hX hset hlast hne
  subst hl
  have hch2 : IsChain m p (A ++ (c.1, c.2) :: B) := by simpa using hch
  have hfresh2 : ins ∉ (A ++ (c.1, c.2) :: B).map Prod.fst := by simpa using hfresh
  have hsuf := isChain_suffix m p A (c :: B) hch2
  have hnext : c.2.next = headPtr B := isChain_headPtr m _ B hsuf.2.2
  have hne : c.1 ≠ ins := by
    intro h
    apply hfresh2
    simp [h]
  refine ⟨_, insAfter_eq m ins c.1 ev c.2 hins hsuf.2.1 hne, ?_⟩
  have := insAfter_chain m p A B c.1 ins c.2 ev hch2 hfresh2
  rw [← hnext]
  simpa using this

theorem fresh_not_mem (m : Heap) (p : Option Nat) (l : List (Nat × Event))
    (h : IsChain m p l) : m.fresh ∉ l.map Prod.fst := by
  intro hmem
  obtain ⟨c, hc, hc1⟩ := List.mem_map.1 hmem
  have := isChain_mem_read m p l h c hc
  rw [hc1, read_fresh] at this
  cases this

/-- The effect of `InsertQ` on a queue satisfying the invariant. -/
theorem insertQ_spec (Q : EventQueue) (l : List (Nat × Event)) (hinv : Inv Q l)
    (ts : TimeStamp) (inc il dev : Nat) :
    ∃ Q2, Q.InsertQ ts inc il dev = some (Q2, ts.advance inc) ∧
      IsChain Q2.mem Q2.head (insNodes Q.mem.fresh (Event.new ts inc il dev) l) ∧
      Q2.lastIns = some Q.mem.fresh := by
  have hfresh := fresh_not_mem _ _ _ hinv.chain
  have hch := isChain_frame _ _ _ Q.mem.fresh (some (Event.new ts inc il dev)) hinv.chain hfresh
  cases l with
  | nil =>
    have hhead : Q.head = none := hinv.chain
    refine ⟨_, by simp only [EventQueue.InsertQ, hhead]; rfl, ?_, rfl⟩
    exact ⟨rfl, read_write_same _ _ _, rfl⟩
  | cons c r =>
    have hhead : Q.head = some c.1 := hinv.chain.1
    rw [hhead] at hch
    have hread := hch.2.1
    by_cases hle : (Event.new ts inc il dev).getTS.LessEq c.2.getTS = true
    · refine ⟨_, by simp only [EventQueue.InsertQ, hhead, hread, hle, if_true]; rfl, ?_, rfl⟩
      simp only [insNodes, hle, if_true]
      exact ⟨rfl, read_write_same _ _ _, isChain_frame _ _ _ _ _ hch hfresh⟩
    · obtain ⟨pre, s, post, hanc, hl, hpre, hs⟩ :=
        anchor_spec _ (Event.new ts inc il dev).getTS Q.lastIns c r hch hinv.sorted
          hinv.last_mem hle
      have hlen := isChain_length_le _ _ _ hch
      have hch3 := hch
      rw [hl] at hch3
      have hwalk := walk_mid _ (Event.new ts inc il dev).getTS
        ((Q.mem.write Q.mem.fresh (some (Event.new ts inc il dev))).length + 1) _ pre post s c.1
        hch3 hpre hs (by rw [← hl]; omega)
      rw [← hl] at hwalk
      have hne : (c :: r).takeWhile (notAfter (Event.new ts inc il dev).getTS) ≠ [] := by
        rw [hl]
        cases pre with
        | nil => simp [List.takeWhile_cons, hs]
        | cons x pre => simp [List.takeWhile_cons, hpre x (by simp)]
      obtain ⟨m2, hm2, hch2⟩ := insAfter_canon _ (Event.new ts inc il dev).getTS _ _
        Q.mem.fresh c.1 (Event.new ts inc il dev) hch hne (read_write_same _ _ _) hfresh
      refine ⟨{ mem := m2, head := some c.1, lastIns := some Q.mem.fresh }, ?_, ?_, rfl⟩
      · simp only [EventQueue.InsertQ, hhead, hread, hle, hanc, hwalk, hm2]
        rfl
      · simp only [insNodes, hle]
        exact hch2

/-! ## The invariant is preserved -/

theorem setLastNext_map {β : Type} (g : Nat × Event → β)
    (hg : ∀ (c : Nat × Event) (n : Option Nat), g (c.1, { c.2 with next := n }) = g c)
    (ins : Nat) (X : List (Nat × Event)) : (setLastNext ins X).map g = X.map g := by
  induction X with
  | nil => rfl
  | cons x X ih =>
    cases X with
    | nil => simp [setLastNext, hg]
    | cons y X =>
      simp only [setLastNext, List.map_cons] at ih ⊢
      rw [ih]

theorem dropWhile_after (t : TimeStamp) (l : List (Nat × Event))
    (hs : l.Pairwise (fun c d => c.2.time.ticks ≤ d.2.time.ticks)) :
    ∀ b ∈ l.dropWhile (notAfter t), t.ticks < b.2.time.ticks := by
  induction l with
  | nil => simp
  | cons c r ih =>
    rw [List.pairwise_cons] at hs
    by_cases hc : notAfter t c = true
    · rw [List.dropWhile_cons_of_pos hc]
      exact ih hs.2
    · rw [List.dropWhile_cons_of_neg hc]
      have hlt : t.ticks < c.2.time.ticks := by
        simp only [TimeStamp.LessEq, Event.getTS, decide_eq_true_eq, notAfter] at hc
        omega
      intro b hb
      rcases List.mem_cons.1 hb with rfl | hb
      · exact hlt
      · have := hs.1 b hb
        omega

theorem takeWhile_notAfter (t : TimeStamp) (l : List (Nat × Event)) :
    ∀ a ∈ l.takeWhile (notAfter t), a.2.time.ticks ≤ t.ticks := by
  intro a ha
  have := List.mem_takeWhile_imp ha
  simpa [TimeStamp.LessEq, Event.getTS, notAfter] using this

theorem insNodes_sorted (ins : Nat) (ev : Event) (l : List (Nat × Event))
    (hs : l.Pairwise (fun c d => c.2.time.ticks ≤ d.2.time.ticks)) :
    (insNodes ins ev l).Pairwise (fun c d => c.2.time.ticks ≤ d.2.time.ticks) := by
  cases l with
  | nil => simp [insNodes]
  | cons c r =>
    by_cases hle : ev.getTS.LessEq c.2.getTS = true
    · simp only [insNodes, hle, if_true]
      rw [List.pairwise_cons]
      refine ⟨?_, hs⟩
      have h1 : ev.time.ticks ≤ c.2.time.ticks := by
        simpa [TimeStamp.LessEq, Event.getTS] using hle
      rw [List.pairwise_cons] at hs
      intro b hb
      rcases List.mem_cons.1 hb with rfl | hb
      · exact h1
      · have := hs.1 b hb
        exact le_trans h1 this
    · simp only [insNodes, hle, Bool.false_eq_true, if_false]
      have hdrop := dropWhile_after ev.getTS (c :: r) hs
      have htake := takeWhile_notAfter ev.getTS (c :: r)
      have hl := List.takeWhile_append_dropWhile (notAfter ev.getTS) (c :: r)
      rw [← hl] at hs
      generalize (c :: r).dropWhile (notAfter ev.getTS) = B at hs hdrop ⊢
      generalize (c :: r).takeWhile (notAfter ev.getTS) = X at hs htake ⊢
      have key : ∀ L : List (Nat × Event),
          L.Pairwise (fun c d => c.2.time.ticks ≤ d.2.time.ticks) ↔
            (L.map (fun c => c.2.time.ticks)).Pairwise (fun a b => a ≤ b) := by
        intro L
        rw [List.pairwise_map]
      rw [key] at hs ⊢
      rw [List.map_append, List.map_cons,
        setLastNext_map (fun c => c.2.time.ticks) (fun _ _ => rfl)]
      rw [List.map_append, List.pairwise_append] at hs
      rw [List.pairwise_append, List.pairwise_cons]
      refine ⟨hs.1, ⟨?_, hs.2.1⟩, ?_⟩
      · intro b hb
        obtain ⟨d, hd, rfl⟩ := List.mem_map.1 hb
        exact le_of_lt (hdrop d hd)
      · intro a ha b hb
        rcases List.mem_cons.1 hb with rfl | hb
        · obtain ⟨d, hd, rfl⟩ := List.mem_map.1 ha
          exact htake d hd
        · exact hs.2.2 a ha b hb

theorem insNodes_mem (ins : Nat) (ev : Event) (l : List (Nat × Event)) :
    ins ∈ (insNodes ins ev l).map Prod.fst := by
  cases l with
  | nil => simp [insNodes]
  | cons c r =>
    by_cases hle : ev.getTS.LessEq c.2.getTS = true
    · simp [insNodes, hle]
    · simp [insNodes, hle]

theorem insertQ_inv (Q : EventQueue) (l : List (Nat × Event)) (hinv : Inv Q l)
    (ts : TimeStamp) (inc il dev : Nat) :
    ∃ Q2, Q.InsertQ ts inc il dev = some (Q2, ts.advance inc) ∧
      Inv Q2 (insNodes Q.mem.fresh (Event.new ts inc il dev) l) ∧
      Q2.lastIns = some Q.mem.fresh := by
  obtain ⟨Q2, h1, h2, h3⟩ := insertQ_spec Q l hinv ts inc il dev
  refine ⟨Q2, h1, ⟨h2, insNodes_sorted _ _ _ hinv.sorted, ?_, ?_⟩, h3⟩
  · intro h
    rw [h3] at h
    cases h
  · intro a ha
    rw [h3] at ha
    cases ha
    exact insNodes_mem _ _ _

theorem removeHead_cons (Q : EventQueue) (c : Nat × Event) (r : List (Nat × Event))
    (h : IsChain Q.mem Q.head (c :: r)) :
    Q.RemoveHead = some { mem := Q.mem.write c.1 none, head := c.2.next,
                          lastIns := if some c.1 = Q.lastIns then c.2.next else Q.lastIns } ∧
      IsChain (Q.mem.write c.1 none) c.2.next r := by
  have hnd := isChain_nodup _ _ _ h
  obtain ⟨hp, hr, hc⟩ := h
  simp only [List.map_cons, List.nodup_cons] at hnd
  refine ⟨?_, isChain_frame _ _ _ _ _ hc hnd.1⟩
  simp only [EventQueue.RemoveHead, hp, hr]
  rfl

theorem removeHead_nil (Q : EventQueue) (h : Q.head = none) : Q.RemoveHead = some Q := by
  simp only [EventQueue.RemoveHead, h]

theorem removeHead_inv (Q : EventQueue) (l : List (Nat × Event)) (hinv : Inv Q l) :
    ∃ Q2, Q.RemoveHead = some Q2 ∧ Inv Q2 l.tail := by
  cases l with
  | nil => exact ⟨Q, removeHead_nil Q hinv.chain, hinv⟩
  | cons c r =>
    obtain ⟨h1, h2⟩ := removeHead_cons Q c r hinv.chain
    have hnd := isChain_nodup _ _ _ hinv.chain
    simp only [List.map_cons, List.nodup_cons] at hnd
    refine ⟨_, h1, ⟨h2, (List.pairwise_cons.1 hinv.sorted).2, ?_, ?_⟩⟩
    · intro hn
      simp only at hn
      by_cases hc : some c.1 = Q.lastIns
      · rw [if_pos hc] at hn
        rw [hn] at h2
        cases r with
        | nil => rfl
        | cons d r => cases h2.1
      · rw [if_neg hc] at hn
        have := hinv.last_none hn
        cases this
    · intro a ha
      simp only at ha
      by_cases hc : some c.1 = Q.lastIns
      · rw [if_pos hc] at ha
        rw [ha] at h2
        cases r with
        | nil => cases h2
        | cons d r =>
          have : a = d.1 := by injection h2.1
          simp [this]
      · rw [if_neg hc] at ha
        have := hinv.last_mem a ha
        simp only [List.map_cons, List.mem_cons] at this
        rcases this with rfl | h
        · exact absurd ha.symm hc
        · exact h

theorem inv_empty : Inv EventQueue.empty [] :=
  ⟨rfl, List.Pairwise.nil, fun _ => rfl, fun a h => by cases h⟩

theorem step_inv (Q : EventQueue) (l : List (Nat × Event)) (hinv : Inv Q l) (op : Op) :
    ∃ Q2 l2, step Q op = some Q2 ∧ Inv Q2 l2 := by
  cases op with
  | insert ts inc il dev =>
    obtain ⟨Q2, h1, h2, -⟩ := insertQ_inv Q l hinv ts inc il dev
    exact ⟨Q2, _, by simp [step, h1], h2⟩
  | removeHead =>
    obtain ⟨Q2, h1, h2⟩ := removeHead_inv Q l hinv
    exact ⟨Q2, _, h1, h2⟩

theorem run_inv_from (ops : List Op) (Q : EventQueue) (l : List (Nat × Event))
    (hinv : Inv Q l) : ∃ Q2 l2, run ops Q = some Q2 ∧ Inv Q2 l2 := by
  induction ops generalizing Q l with
  | nil => exact ⟨Q, l, rfl, hinv⟩
  | cons op ops ih =>
    obtain ⟨Q1, l1, h1, hinv1⟩ := step_inv Q l hinv op
    obtain ⟨Q2, l2, h2, hinv2⟩ := ih Q1 l1 hinv1
    exact ⟨Q2, l2, by simp [run, h1, h2], hinv2⟩

theorem run_inv (ops : List Op) :
    ∃ Q l, run ops EventQueue.empty = some Q ∧ Inv Q l :=
  run_inv_from ops _ _ inv_empty

/-! ## Consequences used by the main results -/

theorem nonDecreasing_of_pairwise (l : List (Nat × Event))
    (hs : l.Pairwise (fun c d => c.2.time.ticks ≤ d.2.time.ticks)) :
    NonDecreasing (l.map (fun c => c.2.time)) = true := by
  induction l with
  | nil => rfl
  | cons c r ih =>
    rw [List.pairwise_cons] at hs
    cases r with
    | nil => rfl
    | cons d r =>
      have h1 := hs.1 d (by simp)
      have h2 := ih hs.2
      simp only [List.map_cons] at h2 ⊢
      simp [NonDecreasing, TimeStamp.LessEq, h1, h2]

theorem insertQ_nodes (Q : EventQueue) (l : List (Nat × Event)) (hinv : Inv Q l)
    (ts : TimeStamp) (inc il dev : Nat) :
    ∃ Q2, Q.InsertQ ts inc il dev = some (Q2, ts.advance inc) ∧
      Inv Q2 (insNodes Q.mem.fresh (Event.new ts inc il dev) l) ∧
      Q2.nodes = some (insNodes Q.mem.fresh (Event.new ts inc il dev) l) ∧
      Q2.lastIns = some Q.mem.fresh := by
  obtain ⟨Q2, h1, h2, h3⟩ := insertQ_inv Q l hinv ts inc il dev
  exact ⟨Q2, h1, h2, isChain_nodes _ _ h2.chain, h3⟩

theorem insNodes_perm (ins : Nat) (ev : Event) (l : List (Nat × Event)) :
    ((insNodes ins ev l).map (fun c => c.2.view)).Perm (ev.view :: l.map (fun c => c.2.view)) := by
  cases l with
  | nil => simp [insNodes]
  | cons c r =>
    by_cases hle : ev.getTS.LessEq c.2.getTS = true
    · simp only [insNodes, hle, if_true]
      exact List.Perm.refl _
    · simp only [insNodes, hle, Bool.false_eq_true, if_false]
      rw [List.map_append, List.map_cons,
        setLastNext_map (fun c => c.2.view) (fun _ _ => rfl)]
      have hl := List.takeWhile_append_dropWhile (notAfter ev.getTS) (c :: r)
      have h2 : ((c :: r).map (fun c => c.2.view)) =
          ((c :: r).takeWhile (notAfter ev.getTS)).map (fun c => c.2.view) ++
            ((c :: r).dropWhile (notAfter ev.getTS)).map (fun c => c.2.view) := by
        rw [← List.map_append, hl]
      rw [h2]
      exact List.perm_middle

theorem insNodes_length (ins : Nat) (ev : Event) (l : List (Nat × Event)) :
    (insNodes ins ev l).length = l.length + 1 := by
  have := (insNodes_perm ins ev l).length_eq
  simpa using this

theorem drain_chain (l : List (Nat × Event)) (Q : EventQueue) (k : Nat)
    (h : IsChain Q.mem Q.head l) :
    drain (l.length + 1 + k) Q = some (l.map (fun c => c.2.view)) := by
  induction l generalizing Q with
  | nil =>
    have hh : Q.head = none := h
    have : ([] : List (Nat × Event)).length + 1 + k = k + 1 := by simp; omega
    rw [this]
    simp [drain, EventQueue.IsEmptyQ, hh]
  | cons c r ih =>
    obtain ⟨hrem, hch⟩ := removeHead_cons Q c r h
    obtain ⟨hp, hr, -⟩ := h
    have hfuel : (c :: r).length + 1 + k = (r.length + 1 + k) + 1 := by simp; omega
    rw [hfuel]
    have ih2 := ih { mem := Q.mem.write c.1 none, head := c.2.next,
                     lastIns := if some c.1 = Q.lastIns then c.2.next else Q.lastIns } hch
    simp only [drain, EventQueue.IsEmptyQ, hp, EventQueue.getHTS, EventQueue.getHIntLine,
      EventQueue.getHDevNum, hr, hrem, Option.map_some', ih2]
    rfl

theorem run_inserts (reqs : List Request) (Q : EventQueue) (l : List (Nat × Event))
    (hinv : Inv Q l) :
    ∃ Q2 l2, run (reqs.map Request.op) Q = some Q2 ∧ Inv Q2 l2 ∧
      (l2.map (fun c => c.2.view)).Perm (l.map (fun c => c.2.view) ++ reqs.map Request.triple) := by
  induction reqs generalizing Q l with
  | nil => exact ⟨Q, l, rfl, hinv, by simp⟩
  | cons r reqs ih =>
    obtain ⟨Q1, h1, hinv1, -, -⟩ := insertQ_nodes Q l hinv r.ts r.inc r.il r.dev
    obtain ⟨Q2, l2, h2, hinv2, hperm⟩ := ih Q1 _ hinv1
    refine ⟨Q2, l2, by simp [run, step, Request.op, h1, h2], hinv2, ?_⟩
    refine hperm.trans ?_
    have hp := insNodes_perm Q.mem.fresh (Event.new r.ts r.inc r.il r.dev) l
    refine (List.Perm.append_right _ hp).trans ?_
    simp only [List.map_cons, List.cons_append]
    exact (@List.perm_middle _ r.triple _ _).symm

theorem insertQ_fromHead_eq (Q : EventQueue) (l : List (Nat × Event)) (hinv : Inv Q l)
    (ts : TimeStamp) (inc il dev : Nat) :
    Q.InsertQ_fromHead ts inc il dev = Q.InsertQ ts inc il dev := by
  have hfresh := fresh_not_mem _ _ _ hinv.chain
  have hch := isChain_frame _ _ _ Q.mem.fresh (some (Event.new ts inc il dev)) hinv.chain hfresh
  cases l with
  | nil =>
    have hhead : Q.head = none := hinv.chain
    simp only [EventQueue.InsertQ, EventQueue.InsertQ_fromHead, hhead]
  | cons c r =>
    have hhead : Q.head = some c.1 := hinv.chain.1
    rw [hhead] at hch
    have hread := hch.2.1
    by_cases hle : (Event.new ts inc il dev).getTS.LessEq c.2.getTS = true
    · simp only [EventQueue.InsertQ, EventQueue.InsertQ_fromHead, hhead, hread, hle, if_true]
    · obtain ⟨pre, s, post, hanc, hl, hpre, hs⟩ :=
        anchor_spec _ (Event.new ts inc il dev).getTS Q.lastIns c r hch hinv.sorted
          hinv.last_mem hle
      have hlen := isChain_length_le _ _ _ hch
      have hch3 := hch
      rw [hl] at hch3
      have hwalk := walk_mid _ (Event.new ts inc il dev).getTS
        ((Q.mem.write Q.mem.fresh (some (Event.new ts inc il dev))).length + 1) _ pre post s c.1
        hch3 hpre hs (by rw [← hl]; omega)
      rw [← hl] at hwalk
      have hc : notAfter (Event.new ts inc il dev).getTS c = true := by
        simp only [TimeStamp.LessEq, Event.getTS, decide_eq_true_eq, notAfter] at hle ⊢
        omega
      have hwalk0 := walk_mid _ (Event.new ts inc il dev).getTS
        ((Q.mem.write Q.mem.fresh (some (Event.new ts inc il dev))).length + 1) _ [] r c c.1
        hch (by simp) hc (by simp only [List.nil_append]; omega)
      simp only [List.nil_append] at hwalk0
      simp only [EventQueue.InsertQ, EventQueue.InsertQ_fromHead, hhead, hread, hle, hanc,
        hwalk, hwalk0]

theorem runRef_eq_from (ops : List Op) (Q : EventQueue) (l : List (Nat × Event))
    (hinv : Inv Q l) : runRef ops Q = run ops Q := by
  induction ops generalizing Q l with
  | nil => rfl
  | cons op ops ih =>
    have hstep : stepRef Q op = step Q op := by
      cases op with
      | insert ts inc il dev =>
        simp only [stepRef, step, insertQ_fromHead_eq Q l hinv]
      | removeHead => rfl
    obtain ⟨Q1, l1, h1, hinv1⟩ := step_inv Q l hinv op
    simp only [runRef, run, hstep, h1, Option.some_bind]
    exact ih Q1 l1 hinv1

theorem reach_inv (ops : List Op) (Q : EventQueue)
    (h : run ops EventQueue.empty = some Q) : ∃ l, Inv Q l ∧ Q.nodes = some l := by
  obtain ⟨Q1, l, hrun, hinv⟩ := run_inv ops
  rw [h] at hrun
  cases hrun
  exact ⟨l, hinv, isChain_nodes Q l hinv.chain⟩

theorem insNodes_map_search {β : Type} (g : Nat × Event → β)
    (hg : ∀ (c : Nat × Event) (n : Option Nat), g (c.1, { c.2 with next := n }) = g c)
    (ins : Nat) (ev : Event) (c : Nat × Event) (r : List (Nat × Event))
    (hle : ev.getTS.LessEq c.2.getTS = false) :
    (insNodes ins ev (c :: r)).map g =
      ((c :: r).takeWhile (notAfter ev.getTS)).map g ++
        g (ins, ev) :: ((c :: r).dropWhile (notAfter ev.getTS)).map g := by
  simp only [insNodes, hle, Bool.false_eq_true, if_false]
  rw [List.map_append, List.map_cons, setLastNext_map g hg]
  congr 2
  exact hg (ins, ev) _

theorem getHTS_chain (Q : EventQueue) (l : List (Nat × Event))
    (h : IsChain Q.mem Q.head l) :
    Q.getHTS = some (l.head?.map (fun c => c.2.time)) := by
  cases l with
  | nil =>
    have hh : Q.head = none := h
    simp [EventQueue.getHTS, hh]
  | cons c r =>
    simp [EventQueue.getHTS, h.1, h.2.1, Event.getTS]

theorem insNodes_head_time (ins : Nat) (ev : Event) (c : Nat × Event)
    (r : List (Nat × Event)) :
    (insNodes ins ev (c :: r)).head?.map (fun c => c.2.time) =
      some (if ev.time.LessEq c.2.time then ev.time else c.2.time) := by
  by_cases hle : ev.getTS.LessEq c.2.getTS = true
  · have hle2 : ev.time.LessEq c.2.time = true := hle
    simp [insNodes, hle, hle2, Event.AddBefore]
  · have hle1 : ev.getTS.LessEq c.2.getTS = false := by simpa using hle
    have hle2 : ev.time.LessEq c.2.time = false := hle1
    have hc : notAfter ev.getTS c = true := by
      simp only [TimeStamp.LessEq, Event.getTS, decide_eq_false_iff_not, decide_eq_true_eq,
        notAfter] at hle1 ⊢
      omega
    have := insNodes_map_search (fun c => c.2.time) (fun _ _ => rfl) ins ev c r hle1
    rw [← List.head?_map, this, List.takeWhile_cons_of_pos hc]
    simp [hle2]

theorem run_count (ops : List Op) (Q : EventQueue) (l : List (Nat × Event))
    (hinv : Inv Q l)
    (h : ∀ k, countRem (ops.take k) ≤ l.length + countIns (ops.take k)) :
    ∃ Q2 l2, run ops Q = some Q2 ∧ Inv Q2 l2 ∧
      l2.length + countRem ops = l.length + countIns ops := by
  induction ops generalizing Q l with
  | nil => exact ⟨Q, l, rfl, hinv, rfl⟩
  | cons op ops ih =>
    cases op with
    | insert ts inc il dev =>
      obtain ⟨Q1, h1, hinv1, -, -⟩ := insertQ_nodes Q l hinv ts inc il dev
      have hlen := insNodes_length Q.mem.fresh (Event.new ts inc il dev) l
      obtain ⟨Q2, l2, h2, hinv2, hcount⟩ := ih Q1 _ hinv1 (by
        intro k
        have := h (k + 1)
        simp only [List.take_succ_cons, countRem, countIns] at this
        omega)
      refine ⟨Q2, l2, by simp [run, step, h1, h2], hinv2, ?_⟩
      simp only [countRem, countIns]
      omega
    | removeHead =>
      obtain ⟨Q1, h1, hinv1⟩ := removeHead_inv Q l hinv
      have hpos : 1 ≤ l.length := by
        have := h 1
        simpa [countRem, countIns] using this
      have hlen : l.tail.length + 1 = l.length := by
        rw [List.length_tail]
        omega
      obtain ⟨Q2, l2, h2, hinv2, hcount⟩ := ih Q1 _ hinv1 (by
        intro k
        have := h (k + 1)
        simp only [List.take_succ_cons, countRem, countIns] at this
        omega)
      refine ⟨Q2, l2, by simp [run, step, h1, h2], hinv2, ?_⟩
      simp only [countRem, countIns]
      omega

theorem insNodes_new (ins : Nat) (ev : Event) (l : List (Nat × Event)) :
    ∃ e, (ins, e) ∈ insNodes ins ev l ∧ e.view = ev.view := by
  cases l with
  | nil => exact ⟨ev, by simp [insNodes], rfl⟩
  | cons c r =>
    by_cases hle : ev.getTS.LessEq c.2.getTS = true
    · exact ⟨ev.AddBefore (some c.1), by simp [insNodes, hle], rfl⟩
    · exact ⟨{ ev with next := headPtr ((c :: r).dropWhile (notAfter ev.getTS)) },
        by simp [insNodes, hle], rfl⟩

/-! ## Main results -/

/-- C1 (ordering invariant): for every finite sequence of `InsertQ` and `RemoveHead`
calls applied to a freshly constructed queue, after every call (after every prefix
`ops.take k` of the sequence) the calls have succeeded, the chain reachable from
`head` via `next` is well formed, and it is non-decreasing in event time: each
node's time is `LessEq` its successor's time. -/
theorem C1_ordering_invariant (ops : List Op) (k : Nat) :
    ∃ Q ns, run (ops.take k) EventQueue.empty = some Q ∧ Q.nodes = some ns ∧
      NonDecreasing (ns.map (fun c => c.2.time)) = true := by
  obtain ⟨Q, l, hrun, hinv⟩ := run_inv (ops.take k)
  exact ⟨Q, l, hrun, isChain_nodes Q l hinv.chain, nonDecreasing_of_pairwise l hinv.sorted⟩

/-- C2 (chronological delivery): for every finite list of insert requests applied
with `InsertQ` to an empty queue, the dispatch loop (read `getHTS`, `getHIntLine`,
`getHDevNum`, call `RemoveHead`, until `IsEmptyQ`) terminates within
`reqs.length + 1` iterations (any extra fuel `k` changes nothing) and yields a
sequence of (time, line, device) triples that is a permutation of the inserted
triples and is non-decreasing in time. -/
theorem C2_chronological_delivery (reqs : List Request) (k : Nat) :
    ∃ Q out, run (reqs.map Request.op) EventQueue.empty = some Q ∧
      drain (reqs.length + 1 + k) Q = some out ∧
      out.Perm (reqs.map Request.triple) ∧
      NonDecreasing (out.map Prod.fst) = true := by
  obtain ⟨Q, l, hrun, hinv, hperm⟩ := run_inserts reqs _ _ inv_empty
  simp only [List.map_nil, List.nil_append] at hperm
  have hlen : l.length = reqs.length := by simpa using hperm.length_eq
  refine ⟨Q, l.map (fun c => c.2.view), hrun, ?_, hperm, ?_⟩
  · rw [← hlen]
    exact drain_chain l Q k hinv.chain
  · have := nonDecreasing_of_pairwise l hinv.sorted
    simpa [List.map_map, Function.comp_def, Event.view] using this

/-- C3 (anchor correctness): for every queue reachable from empty by
`InsertQ`/`RemoveHead` calls and every insert request, `InsertQ` (whose walk may
start from `lastIns`) succeeds and returns exactly the same result, heap cell for
heap cell, as the reference insertion whose walk always starts from `head`;
consequently running any operation sequence with the reference insertion gives
the same final queue. -/
theorem C3_anchor_correctness (ops : List Op) :
    ∃ Q, run ops EventQueue.empty = some Q ∧
      (∀ (ts : TimeStamp) (inc il dev : Nat),
        ∃ Q2 ns, Q.InsertQ ts inc il dev = some (Q2, ts.advance inc) ∧
          Q.InsertQ_fromHead ts inc il dev = some (Q2, ts.advance inc) ∧
          Q2.nodes = some ns) ∧
      runRef ops EventQueue.empty = some Q := by
  obtain ⟨Q, l, hrun, hinv⟩ := run_inv ops
  refine ⟨Q, hrun, ?_, ?_⟩
  · intro ts inc il dev
    obtain ⟨Q2, h1, -, h2, -⟩ := insertQ_nodes Q l hinv ts inc il dev
    exact ⟨Q2, _, h1, by rw [insertQ_fromHead_eq Q l hinv, h1], h2⟩
  · rw [runRef_eq_from ops _ _ inv_empty, hrun]

/-- C4 (front tie-break, LIFO at the front): for every non-empty reachable queue
whose head has time `H`, `InsertQ` of an event whose time `T` satisfies `T LessEq H`
(in particular `T = H`) succeeds and makes the new event the head, with the old
head as its immediate successor and the rest of the chain unchanged; and after
insert(t=10, dev=1), insert(t=10, dev=2) on an empty queue the successive heads
have device number 2 and then 1. -/
theorem C4_front_tie_break :
    (∀ (ops : List Op) (Q : EventQueue) (c : Nat × Event) (r : List (Nat × Event))
        (ts : TimeStamp) (inc il dev : Nat),
        run ops EventQueue.empty = some Q → Q.nodes = some (c :: r) →
        (ts.advance inc).LessEq c.2.time = true →
        ∃ Q2, Q.InsertQ ts inc il dev = some (Q2, ts.advance inc) ∧
          Q2.nodes = some ((Q.mem.fresh,
            { time := ts.advance inc, intL := il, devNum := dev, next := some c.1 }) ::
              c :: r)) ∧
    (∀ (il1 il2 : Nat),
      (run [Op.insert ⟨0⟩ 10 il1 1, Op.insert ⟨0⟩ 10 il2 2] EventQueue.empty).bind
          EventQueue.getHDevNum = some 2 ∧
      (run [Op.insert ⟨0⟩ 10 il1 1, Op.insert ⟨0⟩ 10 il2 2, Op.removeHead]
          EventQueue.empty).bind EventQueue.getHDevNum = some 1) := by
  refine ⟨?_, fun il1 il2 => ⟨rfl, rfl⟩⟩
  intro ops Q c r ts inc il dev hrun hns hle
  obtain ⟨l, hinv, hl⟩ := reach_inv ops Q hrun
  rw [hns] at hl
  cases hl
  obtain ⟨Q2, h1, -, h2, -⟩ := insertQ_nodes Q _ hinv ts inc il dev
  refine ⟨Q2, h1, ?_⟩
  rw [h2]
  have hle2 : (Event.new ts inc il dev).getTS.LessEq c.2.getTS = true := hle
  simp only [insNodes, hle2, if_true]
  rfl

/-- Instance of C4: inserting time 10 into the queue holding one event at time 10
puts the new node (at address 1) in front of the old head (at address 0). -/
theorem C4_front_tie_break_witness :
    ∃ Q2, EventQueue.InsertQ
        { mem := [some { time := ⟨10⟩, intL := 0, devNum := 1, next := none }],
          head := some 0, lastIns := some 0 } ⟨0⟩ 10 0 2 = some (Q2, ⟨10⟩) ∧
      Q2.nodes = some [(1, { time := ⟨10⟩, intL := 0, devNum := 2, next := some 0 }),
                       (0, { time := ⟨10⟩, intL := 0, devNum := 1, next := none })] :=
  C4_front_tie_break.1 [Op.insert ⟨0⟩ 10 0 1] _
    (0, { time := ⟨10⟩, intL := 0, devNum := 1, next := none }) [] ⟨0⟩ 10 0 2 rfl rfl rfl

/-- C5 (interior tie-break, FIFO in the interior): for every reachable queue and
every inserted time `T` that is not `LessEq` the head's time (strictly greater),
`InsertQ` succeeds and the old chain splits as `pre ++ post` with the new chain being
`pre`, then the new node, then `post`, where every node of `pre` has time `LessEq T`
(so the new event sits after every pre-existing event of time at most `T`, equal
times included) and every node of `post` has time strictly greater than `T` (so it
sits immediately before the first such event, or at the tail); and
insert(t=1), insert(t=5, dev=d), insert(t=5, dev=9) on an empty queue drains as
t=1, then dev=d, then dev=9. -/
theorem C5_interior_tie_break :
    (∀ (ops : List Op) (Q : EventQueue) (c : Nat × Event) (r : List (Nat × Event))
        (ts : TimeStamp) (inc il dev : Nat),
        run ops EventQueue.empty = some Q → Q.nodes = some (c :: r) →
        (ts.advance inc).LessEq c.2.time = false →
        ∃ Q2 ns2 pre post, Q.InsertQ ts inc il dev = some (Q2, ts.advance inc) ∧
          Q2.nodes = some ns2 ∧
          (c :: r).map nodeData = pre ++ post ∧
          ns2.map nodeData = pre ++ (Q.mem.fresh, ts.advance inc, il, dev) :: post ∧
          (∀ y ∈ pre, y.2.1.LessEq (ts.advance inc) = true) ∧
          (∀ y ∈ post, y.2.1.LessEq (ts.advance inc) = false)) ∧
    (∀ (il0 d0 il1 d il2 : Nat),
      (run [Op.insert ⟨0⟩ 1 il0 d0, Op.insert ⟨0⟩ 5 il1 d, Op.insert ⟨0⟩ 5 il2 9]
          EventQueue.empty).bind (drain 4) =
        some [(⟨1⟩, il0, d0), (⟨5⟩, il1, d), (⟨5⟩, il2, 9)]) := by
  refine ⟨?_, fun il0 d0 il1 d il2 => rfl⟩
  intro ops Q c r ts inc il dev hrun hns hle
  obtain ⟨l, hinv, hl⟩ := reach_inv ops Q hrun
  rw [hns] at hl
  cases hl
  obtain ⟨Q2, h1, -, h2, -⟩ := insertQ_nodes Q _ hinv ts inc il dev
  have hle2 : (Event.new ts inc il dev).getTS.LessEq c.2.getTS = false := hle
  have hmap := insNodes_map_search nodeData (fun _ _ => rfl) Q.mem.fresh
    (Event.new ts inc il dev) c r hle2
  refine ⟨Q2, _, _, _, h1, h2, ?_, hmap, ?_, ?_⟩
  · rw [← List.map_append, List.takeWhile_append_dropWhile]
  · intro y hy
    obtain ⟨d, hd, rfl⟩ := List.mem_map.1 hy
    have hP : notAfter (Event.new ts inc il dev).getTS d = true := List.mem_takeWhile_imp hd
    exact hP
  · intro y hy
    obtain ⟨d, hd, rfl⟩ := List.mem_map.1 hy
    have := dropWhile_after (Event.new ts inc il dev).getTS (c :: r) hinv.sorted d hd
    simp only [nodeData, TimeStamp.LessEq, decide_eq_false_iff_not]
    have ht : (Event.new ts inc il dev).getTS = ts.advance inc := rfl
    rw [ht] at this
    omega

/-- Instance of C5: inserting time 5 into the chain (t=1, t=5) places the new node
(address 2) after both, behind the equal-time node at address 1. -/
theorem C5_interior_tie_break_witness :
    ∃ Q2 ns2 pre post, EventQueue.InsertQ
        { mem := [some { time := ⟨1⟩, intL := 0, devNum := 0, next := some 1 },
                  some { time := ⟨5⟩, intL := 0, devNum := 7, next := none }],
          head := some 0, lastIns := some 1 } ⟨0⟩ 5 0 9 = some (Q2, ⟨5⟩) ∧
      Q2.nodes = some ns2 ∧
      [(0, (⟨1⟩ : TimeStamp), 0, 0), (1, ⟨5⟩, 0, 7)] = pre ++ post ∧
      ns2.map nodeData = pre ++ (2, ⟨5⟩, 0, 9) :: post ∧
      (∀ y ∈ pre, y.2.1.LessEq ⟨5⟩ = true) ∧
      (∀ y ∈ post, y.2.1.LessEq ⟨5⟩ = false) :=
  C5_interior_tie_break.1 [Op.insert ⟨0⟩ 1 0 0, Op.insert ⟨0⟩ 5 0 7] _
    (0, { time := ⟨1⟩, intL := 0, devNum := 0, next := some 1 })
    [(1, { time := ⟨5⟩, intL := 0, devNum := 7, next := none })] ⟨0⟩ 5 0 9 rfl rfl rfl

/-- C6 (head is the earliest event): for every reachable queue, `getHTS` returns the
time of the first node of the chain (or `NULL` for an empty chain), and that time is
`LessEq` the time of every event in the chain; after `InsertQ` of an event with time
`T`, `getHTS` returns `T` if the queue was empty or `T LessEq` the old head's time,
and otherwise the old head's time unchanged.  Also insert(t=5), insert(t=3) gives
head time 3, and after `RemoveHead` head time 5. -/
theorem C6_head_is_earliest :
    (∀ (ops : List Op), ∃ Q ns, run ops EventQueue.empty = some Q ∧ Q.nodes = some ns ∧
        Q.getHTS = some (ns.head?.map (fun c => c.2.time)) ∧
        (∀ H, Q.getHTS = some (some H) → ∀ c ∈ ns, H.LessEq c.2.time = true) ∧
        (∀ (ts : TimeStamp) (inc il dev : Nat),
          ∃ Q2, Q.InsertQ ts inc il dev = some (Q2, ts.advance inc) ∧
            (Q.IsEmptyQ = true → Q2.getHTS = some (some (ts.advance inc))) ∧
            (∀ H, Q.getHTS = some (some H) →
              Q2.getHTS =
                some (some (if (ts.advance inc).LessEq H then ts.advance inc else H))))) ∧
    (∀ (il1 d1 il2 d2 : Nat),
      (run [Op.insert ⟨0⟩ 5 il1 d1, Op.insert ⟨0⟩ 3 il2 d2] EventQueue.empty).bind
          EventQueue.getHTS = some (some ⟨3⟩) ∧
      (run [Op.insert ⟨0⟩ 5 il1 d1, Op.insert ⟨0⟩ 3 il2 d2, Op.removeHead]
          EventQueue.empty).bind EventQueue.getHTS = some (some ⟨5⟩)) := by
  refine ⟨?_, fun il1 d1 il2 d2 => ⟨rfl, rfl⟩⟩
  intro ops
  obtain ⟨Q, l, hrun, hinv⟩ := run_inv ops
  have hts := getHTS_chain Q l hinv.chain
  refine ⟨Q, l, hrun, isChain_nodes Q l hinv.chain, hts, ?_, ?_⟩
  · intro H hH c hc
    rw [hts] at hH
    cases l with
    | nil => simp at hc
    | cons d r =>
      simp only [List.head?_cons, Option.map_some', Option.some.injEq] at hH
      subst hH
      rcases List.mem_cons.1 hc with rfl | hc
      · simp [TimeStamp.LessEq]
      · have := (List.pairwise_cons.1 hinv.sorted).1 c hc
        simpa [TimeStamp.LessEq] using this
  · intro ts inc il dev
    obtain ⟨Q2, h1, hinv2, -, -⟩ := insertQ_nodes Q l hinv ts inc il dev
    have hts2 := getHTS_chain Q2 _ hinv2.chain
    refine ⟨Q2, h1, ?_, ?_⟩
    · intro hempty
      cases l with
      | nil => rw [hts2]; rfl
      | cons d r =>
        have := hinv.chain.1
        simp [EventQueue.IsEmptyQ, this] at hempty
    · intro H hH
      rw [hts] at hH
      cases l with
      | nil => simp at hH
      | cons d r =>
        simp only [List.head?_cons, Option.map_some', Option.some.injEq] at hH
        subst hH
        rw [hts2, insNodes_head_time]
        rfl

/-- C7, as stated, fails: the sequence RemoveHead, InsertQ has N = 1 inserts and
M = 1 removals with M ≤ N, yet the chain afterwards holds one event, not N − M = 0,
because `RemoveHead` on the empty queue removes nothing. -/
theorem C7_size_conservation_counterexample :
    ∃ Q ns, run [Op.removeHead, Op.insert ⟨0⟩ 1 0 0] EventQueue.empty = some Q ∧
      Q.nodes = some ns ∧
      countRem [Op.removeHead, Op.insert ⟨0⟩ 1 0 0] ≤
        countIns [Op.removeHead, Op.insert ⟨0⟩ 1 0 0] ∧
      ns.length = 1 ∧
      countIns [Op.removeHead, Op.insert ⟨0⟩ 1 0 0] -
        countRem [Op.removeHead, Op.insert ⟨0⟩ 1 0 0] = 0 :=
  ⟨_, _, rfl, rfl, by decide, rfl, rfl⟩

/-- C7 (size conservation, amended): for every sequence of N `InsertQ` calls and M
`RemoveHead` calls applied to an initially empty queue in which no `RemoveHead` is
made on an empty queue (every prefix of the sequence has at least as many inserts as
removals), the calls succeed and the number of events in the chain afterwards
equals N − M. -/
theorem C7_size_conservation_amended (ops : List Op)
    (h : ∀ k, countRem (ops.take k) ≤ countIns (ops.take k)) :
    ∃ Q ns, run ops EventQueue.empty = some Q ∧ Q.nodes = some ns ∧
      ns.length = countIns ops - countRem ops := by
  obtain ⟨Q, l, hrun, hinv, hcount⟩ := run_count ops _ _ inv_empty (by
    intro k
    have := h k
    simp only [List.length_nil]
    omega)
  refine ⟨Q, l, hrun, isChain_nodes Q l hinv.chain, ?_⟩
  simp only [List.length_nil] at hcount
  omega

/-- Instance of the amended C7: two inserts, a removal, an insert and a removal
leave 3 − 2 = 1 event. -/
theorem C7_size_conservation_amended_witness :
    ∃ Q ns, run [Op.insert ⟨0⟩ 4 0 1, Op.insert ⟨0⟩ 2 0 2, Op.removeHead,
                 Op.insert ⟨0⟩ 9 0 3, Op.removeHead] EventQueue.empty = some Q ∧
      Q.nodes = some ns ∧ ns.length = 3 - 2 :=
  C7_size_conservation_amended
    [Op.insert ⟨0⟩ 4 0 1, Op.insert ⟨0⟩ 2 0 2, Op.removeHead,
      Op.insert ⟨0⟩ 9 0 3, Op.removeHead] (by
    intro k
    rcases k with _ | _ | _ | _ | _ | k <;> simp [countRem, countIns])

/-- C8 (`RemoveHead` on an empty queue is a safe no-op): if `head` is `NULL`,
`RemoveHead` returns normally with the heap, `head` and `lastIns` unchanged,
`IsEmptyQ` is true before and after, and `getHTS`, `getHIntLine`, `getHDevNum`
return `NULL`, 0 and 0 before and after. -/
theorem C8_removeHead_empty_noop (Q : EventQueue) (h : Q.head = none) :
    ∃ Q2, Q.RemoveHead = some Q2 ∧
      Q2.mem = Q.mem ∧ Q2.head = Q.head ∧ Q2.lastIns = Q.lastIns ∧
      Q.IsEmptyQ = true ∧ Q2.IsEmptyQ = true ∧
      Q.getHTS = some none ∧ Q2.getHTS = some none ∧
      Q.getHIntLine = some 0 ∧ Q2.getHIntLine = some 0 ∧
      Q.getHDevNum = some 0 ∧ Q2.getHDevNum = some 0 := by
  refine ⟨Q, removeHead_nil Q h, rfl, rfl, rfl, ?_, ?_, ?_, ?_, ?_, ?_, ?_, ?_⟩ <;>
    simp [EventQueue.IsEmptyQ, EventQueue.getHTS, EventQueue.getHIntLine,
      EventQueue.getHDevNum, h]

/-- Instance of C8 at the freshly constructed queue. -/
theorem C8_removeHead_empty_noop_witness :
    ∃ Q2, EventQueue.empty.RemoveHead = some Q2 ∧
      Q2.mem = EventQueue.empty.mem ∧ Q2.head = EventQueue.empty.head ∧
      Q2.lastIns = EventQueue.empty.lastIns ∧
      EventQueue.empty.IsEmptyQ = true ∧ Q2.IsEmptyQ = true ∧
      EventQueue.empty.getHTS = some none ∧ Q2.getHTS = some none ∧
      EventQueue.empty.getHIntLine = some 0 ∧ Q2.getHIntLine = some 0 ∧
      EventQueue.empty.getHDevNum = some 0 ∧ Q2.getHDevNum = some 0 :=
  C8_removeHead_empty_noop EventQueue.empty rfl

/-- C9 (`RemoveHead` on a non-empty queue removes exactly the head): when the chain
is `c :: r`, `RemoveHead` returns normally, frees the cell of `c`, makes the old
head's successor the new head, leaves the chain `r` (every remaining node keeps its
address, time, interrupt line, device number, link and position), and `lastIns`
becomes the new head if it referred to the removed node and is otherwise
unchanged. -/
theorem C9_removeHead_removes_head (Q : EventQueue) (c : Nat × Event)
    (r : List (Nat × Event)) (h : Q.nodes = some (c :: r)) :
    ∃ Q2, Q.RemoveHead = some Q2 ∧ Q2.nodes = some r ∧ Q2.head = c.2.next ∧
      Q2.mem.read c.1 = none ∧
      Q2.lastIns = (if Q.lastIns = some c.1 then Q2.head else Q.lastIns) := by
  obtain ⟨h1, h2⟩ := removeHead_cons Q c r (nodes_isChain Q _ h)
  refine ⟨_, h1, isChain_nodes _ r h2, rfl, read_write_same _ _ _, ?_⟩
  by_cases hc : Q.lastIns = some c.1
  · simp [hc]
  · have hc2 : ¬ some c.1 = Q.lastIns := fun h => hc h.symm
    simp [hc, hc2]

/-- Instance of C9: removing the head of the chain (t=3 at address 1, t=5 at
address 0), with `lastIns` referring to the head. -/
theorem C9_removeHead_removes_head_witness :
    ∃ Q2, EventQueue.RemoveHead
        { mem := [some { time := ⟨5⟩, intL := 0, devNum := 1, next := none },
                  some { time := ⟨3⟩, intL := 0, devNum := 2, next := some 0 }],
          head := some 1, lastIns := some 1 } = some Q2 ∧
      Q2.nodes = some [(0, { time := ⟨5⟩, intL := 0, devNum := 1, next := none })] ∧
      Q2.head = some 0 ∧ Q2.mem.read 1 = none ∧
      Q2.lastIns = (if some 1 = some 1 then Q2.head else some 1) :=
  C9_removeHead_removes_head
    { mem := [some { time := ⟨5⟩, intL := 0, devNum := 1, next := none },
              some { time := ⟨3⟩, intL := 0, devNum := 2, next := some 0 }],
      head := some 1, lastIns := some 1 }
    (1, { time := ⟨3⟩, intL := 0, devNum := 2, next := some 0 })
    [(0, { time := ⟨5⟩, intL := 0, devNum := 1, next := none })] rfl

/-- C10 (`lastIns` validity invariant): for every sequence of `InsertQ` and
`RemoveHead` calls on an initially empty queue, after every call (after every prefix
`ops.take k`) `lastIns` is `NULL` or the address of a node of the chain reachable
from `head`; and every further `InsertQ`, whichever branch it takes, succeeds and
leaves `lastIns` referring to the node just inserted: the cell handed out by `new`
(free before the call), which is in the new chain and carries the requested time,
interrupt line and device number. -/
theorem C10_lastIns_valid (ops : List Op) (k : Nat) :
    ∃ Q ns, run (ops.take k) EventQueue.empty = some Q ∧ Q.nodes = some ns ∧
      (Q.lastIns = none ∨ ∃ c ∈ ns, Q.lastIns = some c.1) ∧
      ∀ (ts : TimeStamp) (inc il dev : Nat),
        ∃ Q2 ns2 e, Q.InsertQ ts inc il dev = some (Q2, ts.advance inc) ∧
          Q2.nodes = some ns2 ∧
          Q.mem.read Q.mem.fresh = none ∧
          Q2.lastIns = some Q.mem.fresh ∧
          (Q.mem.fresh, e) ∈ ns2 ∧
          e.view = (ts.advance inc, il, dev) := by
  obtain ⟨Q, l, hrun, hinv⟩ := run_inv (ops.take k)
  refine ⟨Q, l, hrun, isChain_nodes Q l hinv.chain, ?_, ?_⟩
  · cases hL : Q.lastIns with
    | none => exact Or.inl rfl
    | some a =>
      obtain ⟨c, hc, rfl⟩ := List.mem_map.1 (hinv.last_mem a hL)
      exact Or.inr ⟨c, hc, rfl⟩
  · intro ts inc il dev
    obtain ⟨Q2, h1, -, h2, h3⟩ := insertQ_nodes Q l hinv ts inc il dev
    obtain ⟨e, he, hv⟩ := insNodes_new Q.mem.fresh (Event.new ts inc il dev) l
    exact ⟨Q2, _, e, h1, h2, read_fresh _, h3, he, hv⟩

/-! ## Further consequences -/

theorem insNodes_split (ins : Nat) (ev : Event) (l : List (Nat × Event)) :
    ∃ pre post, l.map nodeData = pre ++ post ∧
      (insNodes ins ev l).map nodeData = pre ++ nodeData (ins, ev) :: post := by
  cases l with
  | nil => exact ⟨[], [], rfl, rfl⟩
  | cons c r =>
    by_cases hle : ev.getTS.LessEq c.2.getTS = true
    · refine ⟨[], (c :: r).map nodeData, rfl, ?_⟩
      simp only [insNodes, hle, if_true, List.nil_append, List.map_cons]
      rfl
    · have hle1 : ev.getTS.LessEq c.2.getTS = false := by simpa using hle
      refine ⟨_, _, ?_, insNodes_map_search nodeData (fun _ _ => rfl) ins ev c r hle1⟩
      rw [← List.map_append, List.takeWhile_append_dropWhile]

theorem filter_split (a : Nat) (x : Nat × TimeStamp × Nat × Nat)
    (pre post : List (Nat × TimeStamp × Nat × Nat)) (hx : x.1 = a)
    (h : ∀ d ∈ pre ++ post, d.1 ≠ a) :
    (pre ++ x :: post).filter (fun d => decide (d.1 ≠ a)) = pre ++ post := by
  have h1 : ∀ d ∈ pre ++ post, decide (d.1 ≠ a) = true := by
    intro d hd
    simpa using h d hd
  have h2 : (pre ++ post).filter (fun d => decide (d.1 ≠ a)) = pre ++ post :=
    List.filter_eq_self.2 h1
  rw [List.filter_append] at h2 ⊢
  rw [List.filter_cons_of_neg (by simp [hx])]
  exact h2

/-! ## Main results, continued -/

/-- C11 (`InsertQ`'s result): whenever `InsertQ` returns, the value it returns is the
base time `ts` advanced by `inc`; and for every reachable queue and every request
`InsertQ` does return, the new event's cell stores exactly that time together with
the interrupt line `il` and device number `dev`, and that node is in the chain
afterwards. -/
theorem C11_insertQ_result :
    (∀ (Q Q2 : EventQueue) (ts t : TimeStamp) (inc il dev : Nat),
        Q.InsertQ ts inc il dev = some (Q2, t) → t = ts.advance inc) ∧
    (∀ (ops : List Op), ∃ Q, run ops EventQueue.empty = some Q ∧
        ∀ (ts : TimeStamp) (inc il dev : Nat),
          ∃ Q2 ns2 e, Q.InsertQ ts inc il dev = some (Q2, ts.advance inc) ∧
            Q2.nodes = some ns2 ∧ (Q.mem.fresh, e) ∈ ns2 ∧
            Q2.mem.read Q.mem.fresh = some e ∧
            e.getTS = ts.advance inc ∧ e.getIntLine = il ∧ e.getDevNum = dev) := by
  constructor
  · intro Q Q2 ts t inc il dev h
    unfold EventQueue.InsertQ at h
    simp only at h
    split at h
    · cases h; rfl
    · split at h
      · cases h
      · split at h
        · cases h; rfl
        · split at h
          · cases h
          · split at h
            · cases h
            · split at h
              · cases h
              · cases h; rfl
  · intro ops
    obtain ⟨Q, l, hrun, hinv⟩ := run_inv ops
    refine ⟨Q, hrun, ?_⟩
    intro ts inc il dev
    obtain ⟨Q2, h1, hinv2, h2, -⟩ := insertQ_nodes Q l hinv ts inc il dev
    obtain ⟨e, he, hv⟩ := insNodes_new Q.mem.fresh (Event.new ts inc il dev) l
    have hr := isChain_mem_read _ _ _ hinv2.chain _ he
    have hv1 : e.time = ts.advance inc := congrArg (fun v => v.1) hv
    have hv2 : e.intL = il := congrArg (fun v => v.2.1) hv
    have hv3 : e.devNum = dev := congrArg (fun v => v.2.2) hv
    exact ⟨Q2, _, e, h1, h2, he, hr, hv1, hv2, hv3⟩

/-- C12 (head inspection): for every queue, `IsEmptyQ` returns true iff `head` is
`NULL`; if the queue is empty `getHTS` returns `NULL` and `getHIntLine`, `getHDevNum`
return the sentinel 0; if `head` points to a live event they return that event's
time, interrupt line and device number.  On every reachable queue the three peeks
are defined and give the data of the first node of the chain.  The four calls are
functions of the queue alone: they assign nothing, so the queue is unchanged. -/
theorem C12_head_inspection :
    (∀ (Q : EventQueue),
      (Q.IsEmptyQ = true ↔ Q.head = none) ∧
      (Q.head = none →
        Q.getHTS = some none ∧ Q.getHIntLine = some 0 ∧ Q.getHDevNum = some 0) ∧
      (∀ h e, Q.head = some h → Q.mem.read h = some e →
        Q.IsEmptyQ = false ∧ Q.getHTS = some (some e.time) ∧
        Q.getHIntLine = some e.intL ∧ Q.getHDevNum = some e.devNum)) ∧
    (∀ (ops : List Op), ∃ Q ns, run ops EventQueue.empty = some Q ∧ Q.nodes = some ns ∧
      Q.IsEmptyQ = ns.isEmpty ∧
      Q.getHTS = some (ns.head?.map (fun c => c.2.time)) ∧
      Q.getHIntLine = some ((ns.head?.map (fun c => c.2.intL)).getD 0) ∧
      Q.getHDevNum = some ((ns.head?.map (fun c => c.2.devNum)).getD 0)) := by
  constructor
  · intro Q
    refine ⟨?_, ?_, ?_⟩
    · cases hh : Q.head <;> simp [EventQueue.IsEmptyQ, hh]
    · intro hh
      simp [EventQueue.getHTS, EventQueue.getHIntLine, EventQueue.getHDevNum, hh]
    · intro h e hh hr
      simp [EventQueue.IsEmptyQ, EventQueue.getHTS, EventQueue.getHIntLine,
        EventQueue.getHDevNum, hh, hr, Event.getTS, Event.getIntLine, Event.getDevNum]
  · intro ops
    obtain ⟨Q, l, hrun, hinv⟩ := run_inv ops
    refine ⟨Q, l, hrun, isChain_nodes Q l hinv.chain, ?_⟩
    cases l with
    | nil =>
      have hh : Q.head = none := hinv.chain
      simp [EventQueue.IsEmptyQ, EventQueue.getHTS, EventQueue.getHIntLine,
        EventQueue.getHDevNum, hh]
    | cons c r =>
      have hh := hinv.chain.1
      have hr := hinv.chain.2.1
      simp [EventQueue.IsEmptyQ, EventQueue.getHTS, EventQueue.getHIntLine,
        EventQueue.getHDevNum, hh, hr, Event.getTS, Event.getIntLine, Event.getDevNum]

/-- C13, as stated, fails: no request is rejected.  On the freshly constructed queue
there is no request (whatever its base time, increment, line or device) for which
`InsertQ` fails to return or returns with the queue left as it was. -/
theorem C13_invalid_request_counterexample :
    ¬ ∃ (ts : TimeStamp) (inc il dev : Nat),
        EventQueue.empty.InsertQ ts inc il dev = none ∨
        (EventQueue.empty.InsertQ ts inc il dev).map Prod.fst = some EventQueue.empty := by
  rintro ⟨ts, inc, il, dev, h | h⟩
  · simp [EventQueue.InsertQ, EventQueue.empty] at h
  · simp [EventQueue.InsertQ, EventQueue.empty] at h

/-- C13 (amended): `InsertQ` validates nothing and has no rejection path: on every
reachable queue every request, whatever its increment, is accepted; the call returns
the scheduled time and the chain gains exactly one node. -/
theorem C13_no_rejection_amended (ops : List Op) :
    ∃ Q ns, run ops EventQueue.empty = some Q ∧ Q.nodes = some ns ∧
      ∀ (ts : TimeStamp) (inc il dev : Nat),
        ∃ Q2 ns2, Q.InsertQ ts inc il dev = some (Q2, ts.advance inc) ∧
          Q2.nodes = some ns2 ∧ ns2.length = ns.length + 1 ∧ Q2 ≠ Q := by
  obtain ⟨Q, l, hrun, hinv⟩ := run_inv ops
  refine ⟨Q, l, hrun, isChain_nodes Q l hinv.chain, ?_⟩
  intro ts inc il dev
  obtain ⟨Q2, h1, -, h2, h3⟩ := insertQ_nodes Q l hinv ts inc il dev
  refine ⟨Q2, _, h1, h2, insNodes_length _ _ _, ?_⟩
  intro heq
  rw [heq] at h2
  rw [isChain_nodes Q l hinv.chain] at h2
  have := congrArg (Option.map List.length) h2
  simp [insNodes_length] at this

/-- C14 (`InsertQ` is total and only adds): for every reachable queue and every
request, `InsertQ` succeeds, and the chain afterwards is the old chain with exactly
one new node, at the address handed out by `new` (which no old node has), spliced in
at one position: the old chain is `pre ++ post`, the new one `pre`, the new node,
`post`, where nodes are compared by address, time, interrupt line and device
number; deleting the new node gives back the old chain, and the length grows by
exactly 1. -/
theorem C14_insertQ_only_adds (ops : List Op) :
    ∃ Q ns, run ops EventQueue.empty = some Q ∧ Q.nodes = some ns ∧
      ∀ (ts : TimeStamp) (inc il dev : Nat),
        ∃ Q2 ns2 pre post, Q.InsertQ ts inc il dev = some (Q2, ts.advance inc) ∧
          Q2.nodes = some ns2 ∧
          (∀ d ∈ ns.map nodeData, d.1 ≠ Q.mem.fresh) ∧
          ns.map nodeData = pre ++ post ∧
          ns2.map nodeData = pre ++ (Q.mem.fresh, ts.advance inc, il, dev) :: post ∧
          (ns2.map nodeData).filter (fun d => decide (d.1 ≠ Q.mem.fresh)) =
            ns.map nodeData ∧
          ns2.length = ns.length + 1 := by
  obtain ⟨Q, l, hrun, hinv⟩ := run_inv ops
  refine ⟨Q, l, hrun, isChain_nodes Q l hinv.chain, ?_⟩
  intro ts inc il dev
  obtain ⟨Q2, h1, -, h2, -⟩ := insertQ_nodes Q l hinv ts inc il dev
  obtain ⟨pre, post, hs1, hs2⟩ := insNodes_split Q.mem.fresh (Event.new ts inc il dev) l
  have hfresh : ∀ d ∈ l.map nodeData, d.1 ≠ Q.mem.fresh := by
    intro d hd heq
    obtain ⟨c, hc, rfl⟩ := List.mem_map.1 hd
    exact fresh_not_mem _ _ _ hinv.chain (List.mem_map.2 ⟨c, hc, heq⟩)
  refine ⟨Q2, _, pre, post, h1, h2, hfresh, hs1, hs2, ?_, insNodes_length _ _ _⟩
  rw [hs2, hs1]
  exact filter_split _ _ _ _ rfl (by rw [← hs1]; exact hfresh)

/-- C17 (implicit): for every sequence of `InsertQ` and `RemoveHead` calls on an
initially empty queue, after every call (after every prefix `ops.take k`) `lastIns`
is `NULL` if and only if `head` is `NULL`. -/
theorem C17_lastIns_null_iff_head_null (ops : List Op) (k : Nat) :
    ∃ Q, run (ops.take k) EventQueue.empty = some Q ∧
      (Q.lastIns = none ↔ Q.head = none) := by
  obtain ⟨Q, l, hrun, hinv⟩ := run_inv (ops.take k)
  refine ⟨Q, hrun, ?_, ?_⟩
  · intro h
    have hl := hinv.last_none h
    subst hl
    exact hinv.chain
  · intro h
    cases hL : Q.lastIns with
    | none => rfl
    | some a =>
      have hmem := hinv.last_mem a hL
      cases l with
      | nil => simp at hmem
      | cons c r =>
        have := hinv.chain.1
        rw [h] at this
        cases this

/-- C19 (implicit): the drain order of equal-time events is in general neither
insertion order nor reverse insertion order: after insert t=1; insert t=5 dev=a;
insert t=5 dev=b; RemoveHead; insert t=5 dev=c on an empty queue, the chain holds
the three events of time 5 in the order c, a, b, and they drain in that order. -/
theorem C19_equal_time_order (il0 d0 il1 a il2 b il3 c : Nat) :
    ((run [Op.insert ⟨0⟩ 1 il0 d0, Op.insert ⟨0⟩ 5 il1 a, Op.insert ⟨0⟩ 5 il2 b,
           Op.removeHead, Op.insert ⟨0⟩ 5 il3 c] EventQueue.empty).bind
        EventQueue.nodes).map (List.map (fun n => n.2.view)) =
      some [(⟨5⟩, il3, c), (⟨5⟩, il1, a), (⟨5⟩, il2, b)] ∧
    (run [Op.insert ⟨0⟩ 1 il0 d0, Op.insert ⟨0⟩ 5 il1 a, Op.insert ⟨0⟩ 5 il2 b,
          Op.removeHead, Op.insert ⟨0⟩ 5 il3 c] EventQueue.empty).bind (drain 4) =
      some [(⟨5⟩, il3, c), (⟨5⟩, il1, a), (⟨5⟩, il2, b)] :=
  ⟨rfl, rfl⟩

theorem destroyLoop_chain (l : List (Nat × Event)) (m : Heap) (p : Option Nat) (fuel : Nat)
    (h : IsChain m p l) (hf : l.length < fuel) :
    ∃ m2, destroyLoop fuel m p = some (m2, l.map Prod.fst) ∧
      (∀ a ∈ l.map Prod.fst, m2.read a = none) ∧
      (∀ a, a ∉ l.map Prod.fst → m2.read a = m.read a) := by
  induction l generalizing m p fuel with
  | nil =>
    cases fuel with
    | zero => simp at hf
    | succ fuel =>
      simp only [IsChain] at h
      subst h
      exact ⟨m, rfl, by simp, fun _ _ => rfl⟩
  | cons c r ih =>
    cases fuel with
    | zero => simp at hf
    | succ fuel =>
      have hnd := isChain_nodup m p _ h
      simp only [List.map_cons, List.nodup_cons] at hnd
      obtain ⟨hp, hr, hc⟩ := h
      subst hp
      have hc2 := isChain_frame _ _ _ c.1 none hc hnd.1
      obtain ⟨m2, h1, h2, h3⟩ := ih _ _ fuel hc2 (by simpa using hf)
      refine ⟨m2, ?_, ?_, ?_⟩
      · simp [destroyLoop, hr, Event.Next, h1]
      · intro a ha
        rcases List.mem_cons.1 ha with rfl | ha
        · rw [h3 _ hnd.1, read_write_same]
        · exact h2 a ha
      · intro a ha
        simp only [List.map_cons, List.mem_cons, not_or] at ha
        rw [h3 a ha.2, read_write_other _ _ _ _ ha.1]

/-- C16 (destruction completeness): for every reachable queue the destructor's loop
terminates without touching a free cell, and the sequence of nodes it deletes is
exactly the chain reachable from `head`, in chain order, with no address repeated
(no node deleted twice, none skipped); afterwards every cell of the chain is free
and every other cell is as before.  Each node's successor is read while the node is
still live: the loop would have no defined result otherwise. -/
theorem C16_destruction_completeness (ops : List Op) :
    ∃ Q ns m2, run ops EventQueue.empty = some Q ∧ Q.nodes = some ns ∧
      Q.destroy = some (m2, ns.map Prod.fst) ∧
      (ns.map Prod.fst).Nodup ∧
      (∀ a ∈ ns.map Prod.fst, m2.read a = none) ∧
      (∀ a, a ∉ ns.map Prod.fst → m2.read a = Q.mem.read a) := by
  obtain ⟨Q, l, hrun, hinv⟩ := run_inv ops
  obtain ⟨m2, h1, h2, h3⟩ := destroyLoop_chain l Q.mem Q.head (Q.mem.length + 1) hinv.chain
    (Nat.lt_succ_of_le (isChain_length_le _ _ _ hinv.chain))
  exact ⟨Q, l, m2, hrun, isChain_nodes Q l hinv.chain, h1,
    isChain_nodup _ _ _ hinv.chain, h2, h3⟩

/-- C18 (implicit): in the search branch of `InsertQ` (queue non-empty and the new
time not `LessEq` the head's time), for every reachable queue the anchor is chosen
without fault, the walk terminates, and the predecessor `q` it hands to `InsAfter`
is the address of a node currently in the chain, live in the heap, distinct from the
new node, with time `LessEq` the new event's time; `InsAfter` dereferences it
without fault. -/
theorem C18_walk_predecessor_valid (ops : List Op) (Q : EventQueue) (c : Nat × Event)
    (r : List (Nat × Event)) (ts : TimeStamp) (inc il dev : Nat)
    (hrun : run ops EventQueue.empty = some Q) (hns : Q.nodes = some (c :: r))
    (hle : (ts.advance inc).LessEq c.2.time = false) :
    ∃ s p2 q qe m2,
      anchor (Q.mem.write Q.mem.fresh (some (Event.new ts inc il dev)))
        (ts.advance inc) Q.lastIns c.1 = some s ∧
      walk ((Q.mem.write Q.mem.fresh (some (Event.new ts inc il dev))).length + 1)
        (Q.mem.write Q.mem.fresh (some (Event.new ts inc il dev)))
        (ts.advance inc) (some s) s = some (p2, q) ∧
      (q, qe) ∈ c :: r ∧
      (Q.mem.write Q.mem.fresh (some (Event.new ts inc il dev))).read q = some qe ∧
      q ≠ Q.mem.fresh ∧
      qe.getTS.LessEq (ts.advance inc) = true ∧
      InsAfter (Q.mem.write Q.mem.fresh (some (Event.new ts inc il dev))) Q.mem.fresh q =
        some m2 := by
  obtain ⟨l, hinv, hl⟩ := reach_inv ops Q hrun
  rw [hns] at hl
  cases hl
  have hfresh := fresh_not_mem _ _ _ hinv.chain
  have hch := isChain_frame _ _ _ Q.mem.fresh (some (Event.new ts inc il dev)) hinv.chain hfresh
  have hhead : Q.head = some c.1 := hinv.chain.1
  rw [hhead] at hch
  have hle2 : ¬ (Event.new ts inc il dev).getTS.LessEq c.2.getTS = true := by
    have : (Event.new ts inc il dev).getTS.LessEq c.2.getTS = false := hle
    simp [this]
  obtain ⟨pre, s, post, hanc, hl, hpre, hs⟩ :=
    anchor_spec _ (Event.new ts inc il dev).getTS Q.lastIns c r hch hinv.sorted
      hinv.last_mem hle2
  have hlen := isChain_length_le _ _ _ hch
  have hch3 := hch
  rw [hl] at hch3
  have hwalk := walk_mid _ (Event.new ts inc il dev).getTS
    ((Q.mem.write Q.mem.fresh (some (Event.new ts inc il dev))).length + 1) _ pre post s c.1
    hch3 hpre hs (by rw [← hl]; omega)
  rw [← hl] at hwalk
  have hne : (c :: r).takeWhile (notAfter (Event.new ts inc il dev).getTS) ≠ [] := by
    rw [hl]
    cases pre with
    | nil => simp [List.takeWhile_cons, hs]
    | cons x pre => simp [List.takeWhile_cons, hpre x (by simp)]
  obtain ⟨A, cq, hX, hlast, -⟩ := last_decomp Q.mem.fresh c.1 _ hne
  have hcq : cq ∈ (c :: r).takeWhile (notAfter (Event.new ts inc il dev).getTS) := by
    rw [hX]
    simp
  have hmem : cq ∈ c :: r := (List.takeWhile_sublist _).subset hcq
  have hP : notAfter (Event.new ts inc il dev).getTS cq = true := List.mem_takeWhile_imp hcq
  have hread := isChain_mem_read _ _ _ hch cq hmem
  have hneq : cq.1 ≠ Q.mem.fresh := by
    intro heq
    exact hfresh (List.mem_map.2 ⟨cq, hmem, heq⟩)
  rw [hlast] at hwalk
  exact ⟨s.1, _, cq.1, cq.2, _, hanc, hwalk, hmem, hread, hneq, hP,
    insAfter_eq _ _ _ _ _ (read_write_same _ _ _) hread hneq⟩

/-- Instance of C18: inserting time 5 into the chain (t=1 at address 0, t=5 at
address 1); the predecessor found by the walk is a node of the chain with time at
most 5. -/
theorem C18_walk_predecessor_valid_witness :
    ∃ q qe, (q, qe) ∈ [(0, ({ time := ⟨1⟩, intL := 0, devNum := 0, next := some 1 } : Event)),
                       (1, { time := ⟨5⟩, intL := 0, devNum := 7, next := none })] ∧
      qe.getTS.LessEq ⟨5⟩ = true := by
  obtain ⟨-, -, q, qe, -, -, -, hmem, -, -, hle, -⟩ :=
    C18_walk_predecessor_valid [Op.insert ⟨0⟩ 1 0 0, Op.insert ⟨0⟩ 5 0 7] _
      (0, { time := ⟨1⟩, intL := 0, devNum := 0, next := some 1 })
      [(1, { time := ⟨5⟩, intL := 0, devNum := 7, next := none })] ⟨0⟩ 5 0 9 rfl rfl rfl
  exact ⟨q, qe, hmem, hle⟩

/-! ## Strictly increasing insertion times -/

theorem lastPtr_concat (X : List (Nat × Event)) (c : Nat × Event) :
    lastPtr (X ++ [c]) = some c.1 := by
  rw [lastPtr, List.getLast?_concat]
  rfl

theorem lastPtr_mem (l : List (Nat × Event)) (a : Nat) (h : lastPtr l = some a) :
    a ∈ l.map Prod.fst := by
  rcases List.eq_nil_or_concat l with rfl | ⟨X, c, rfl⟩
  · cases h
  · rw [List.concat_eq_append] at h ⊢
    rw [lastPtr_concat] at h
    cases h
    simp

theorem insertTimes_append (ops ops2 : List Op) :
    insertTimes (ops ++ ops2) = insertTimes ops ++ insertTimes ops2 := by
  induction ops with
  | nil => rfl
  | cons op ops ih =>
    cases op with
    | insert ts inc il dev => simp [insertTimes, ih]
    | removeHead => simpa [insertTimes] using ih

theorem insNodes_append (ins : Nat) (ts : TimeStamp) (inc il dev : Nat)
    (l : List (Nat × Event))
    (h : ∀ c ∈ l, c.2.time.ticks < (ts.advance inc).ticks) :
    insNodes ins (Event.new ts inc il dev) l =
      setLastNext ins l ++ [(ins, Event.new ts inc il dev)] := by
  cases l with
  | nil => rfl
  | cons c r =>
    have hP : ∀ x ∈ c :: r, notAfter (Event.new ts inc il dev).getTS x = true := by
      intro x hx
      have := h x hx
      simp only [notAfter, TimeStamp.LessEq, Event.getTS, decide_eq_true_eq]
      exact le_of_lt this
    have hle : (Event.new ts inc il dev).getTS.LessEq c.2.getTS = false := by
      have := h c (by simp)
      simp only [TimeStamp.LessEq, Event.getTS, decide_eq_false_iff_not]
      have ht : (Event.new ts inc il dev).time = ts.advance inc := rfl
      rw [ht]
      omega
    simp only [insNodes, hle, Bool.false_eq_true, if_false]
    rw [List.takeWhile_eq_self_iff.2 hP, List.dropWhile_eq_nil_iff.2 hP]
    rfl

theorem insNodes_time_mem (ins : Nat) (ev : Event) (l : List (Nat × Event)) :
    ∀ c ∈ insNodes ins ev l, c.2.time = ev.time ∨ ∃ d ∈ l, d.2.time = c.2.time := by
  intro c hc
  have h1 : c.2.view ∈ (insNodes ins ev l).map (fun c => c.2.view) :=
    List.mem_map.2 ⟨c, hc, rfl⟩
  have h2 := (insNodes_perm ins ev l).subset h1
  rcases List.mem_cons.1 h2 with h | h
  · exact Or.inl (congrArg (fun v => v.1) h)
  · obtain ⟨d, hd, hv⟩ := List.mem_map.1 h
    exact Or.inr ⟨d, hd, congrArg (fun v => v.1) hv⟩

theorem removeHead_lastPtr (Q : EventQueue) (l : List (Nat × Event)) (hinv : Inv Q l)
    (hlast : Q.lastIns = lastPtr l) :
    ∃ Q2, Q.RemoveHead = some Q2 ∧ Inv Q2 l.tail ∧ Q2.lastIns = lastPtr l.tail := by
  obtain ⟨Q2, h1, hinv2⟩ := removeHead_inv Q l hinv
  refine ⟨Q2, h1, hinv2, ?_⟩
  cases l with
  | nil =>
    rw [removeHead_nil Q hinv.chain] at h1
    cases h1
    exact hlast
  | cons c r =>
    obtain ⟨h3, h4⟩ := removeHead_cons Q c r hinv.chain
    rw [h3] at h1
    cases h1
    have hnd := isChain_nodup _ _ _ hinv.chain
    simp only [List.map_cons, List.nodup_cons] at hnd
    cases r with
    | nil =>
      have hl : Q.lastIns = some c.1 := hlast
      have hn : c.2.next = none := h4
      simp [hl, hn, lastPtr]
    | cons d r =>
      have hl : Q.lastIns = lastPtr (d :: r) := by
        rw [hlast]
        simp [lastPtr]
      have hne : ¬ some c.1 = Q.lastIns := by
        intro h
        exact hnd.1 (lastPtr_mem (d :: r) c.1 (by rw [← hl, ← h]))
      simp only [List.tail_cons, if_neg hne]
      exact hl

theorem run_mono (ops : List Op) (Q : EventQueue) (l : List (Nat × Event))
    (hinv : Inv Q l) (hlast : Q.lastIns = lastPtr l)
    (htimes : ∀ c ∈ l, ∀ t ∈ insertTimes ops, c.2.time.ticks < t)
    (hmono : (insertTimes ops).Pairwise (fun a b => a < b)) :
    ∃ Q2 l2, run ops Q = some Q2 ∧ Inv Q2 l2 ∧ Q2.lastIns = lastPtr l2 ∧
      ∀ c ∈ l2, (∃ d ∈ l, d.2.time = c.2.time) ∨ c.2.time.ticks ∈ insertTimes ops := by
  induction ops generalizing Q l with
  | nil => exact ⟨Q, l, rfl, hinv, hlast, fun c hc => Or.inl ⟨c, hc, rfl⟩⟩
  | cons op ops ih =>
    cases op with
    | insert ts inc il dev =>
      simp only [insertTimes, List.pairwise_cons] at hmono
      have hT : ∀ c ∈ l, c.2.time.ticks < (ts.advance inc).ticks :=
        fun c hc => htimes c hc _ (by simp [insertTimes])
      obtain ⟨Q1, h1, hinv1, -, hl1⟩ := insertQ_nodes Q l hinv ts inc il dev
      have hmem := insNodes_time_mem Q.mem.fresh (Event.new ts inc il dev) l
      have hlast1 : Q1.lastIns = lastPtr (insNodes Q.mem.fresh (Event.new ts inc il dev) l) := by
        rw [hl1, insNodes_append _ _ _ _ _ _ hT, lastPtr_concat]
      obtain ⟨Q2, l2, h2, hinv2, hlast2, hfrom⟩ := ih Q1 _ hinv1 hlast1 (by
        intro c hc t ht
        rcases hmem c hc with h | ⟨d, hd, h⟩
        · rw [h]
          exact hmono.1 t ht
        · rw [← h]
          exact htimes d hd t (by simp [insertTimes, ht])) hmono.2
      refine ⟨Q2, l2, by simp [run, step, h1, h2], hinv2, hlast2, ?_⟩
      intro c hc
      rcases hfrom c hc with ⟨d, hd, h⟩ | h
      · rcases hmem d hd with h3 | ⟨d2, hd2, h3⟩
        · right
          rw [← h, h3]
          simp [insertTimes, Event.new]
        · exact Or.inl ⟨d2, hd2, h3.trans h⟩
      · right
        simp [insertTimes, h]
    | removeHead =>
      obtain ⟨Q1, h1, hinv1, hlast1⟩ := removeHead_lastPtr Q l hinv hlast
      obtain ⟨Q2, l2, h2, hinv2, hlast2, hfrom⟩ := ih Q1 _ hinv1 hlast1
        (fun c hc t ht => htimes c (List.mem_of_mem_tail hc) t ht) hmono
      refine ⟨Q2, l2, by simp [run, step, h1, h2], hinv2, hlast2, ?_⟩
      intro c hc
      rcases hfrom c hc with ⟨d, hd, h⟩ | h
      · exact Or.inl ⟨d, List.mem_of_mem_tail hd, h⟩
      · exact Or.inr h

theorem fastPath_walk (m : Heap) (t : TimeStamp) (p : Option Nat) (A : List (Nat × Event))
    (cl : Nat × Event) (h : Nat) (hch : IsChain m p (A ++ [cl]))
    (hlt : cl.2.time.ticks < t.ticks) :
    anchor m t (some cl.1) h = some cl.1 ∧
      walkBodyCount (m.length + 1) m t (some cl.1) = some 1 := by
  have hs := isChain_suffix m p A [cl] hch
  obtain ⟨-, hr, hn⟩ := hs
  have hnext : cl.2.next = none := hn
  have hlen := read_lt_length m cl.1 cl.2 hr
  have hle : t.LessEq cl.2.getTS = false := by
    simp only [TimeStamp.LessEq, Event.getTS, decide_eq_false_iff_not]
    omega
  have hle2 : cl.2.getTS.LessEq t = true := by
    simp only [TimeStamp.LessEq, Event.getTS, decide_eq_true_eq]
    omega
  refine ⟨by simp [anchor, hr, hle], ?_⟩
  obtain ⟨k, hk⟩ : ∃ k, m.length = k + 1 := ⟨m.length - 1, by omega⟩
  rw [hk]
  simp [walkBodyCount, hr, hle2, Event.Next, hnext]

/-- C15 (monotonic-insertion fast path): take any sequence of `InsertQ` and
`RemoveHead` calls on an initially empty queue in which each inserted time is
strictly greater than every previously inserted time.  Then the calls succeed and
afterwards `lastIns` points to the last node of the chain (and is `NULL` for an empty
chain).  For every further `InsertQ` whose time is strictly greater than every time
inserted so far: every old event is strictly earlier than the new one, the call
succeeds and appends the new event at the tail, `lastIns` again points to the last
node, and when the queue was non-empty the walk starts from `lastIns` and its loop
body runs exactly once. -/
theorem C15_monotonic_fast_path (ops : List Op)
    (hmono : (insertTimes ops).Pairwise (fun a b => a < b)) :
    ∃ Q ns, run ops EventQueue.empty = some Q ∧ Q.nodes = some ns ∧
      Q.lastIns = lastPtr ns ∧
      ∀ (ts : TimeStamp) (inc il dev : Nat),
        (∀ t ∈ insertTimes ops, t < (ts.advance inc).ticks) →
        ∃ Q2 ns2,
          (∀ c ∈ ns, (ts.advance inc).LessEq c.2.time = false) ∧
          Q.InsertQ ts inc il dev = some (Q2, ts.advance inc) ∧
          Q2.nodes = some ns2 ∧
          ns2.map nodeData = ns.map nodeData ++ [(Q.mem.fresh, ts.advance inc, il, dev)] ∧
          Q2.lastIns = lastPtr ns2 ∧
          (∀ h, Q.head = some h →
            Q.lastIns ≠ none ∧
            anchor (Q.mem.write Q.mem.fresh (some (Event.new ts inc il dev)))
              (ts.advance inc) Q.lastIns h = Q.lastIns ∧
            walkBodyCount
              ((Q.mem.write Q.mem.fresh (some (Event.new ts inc il dev))).length + 1)
              (Q.mem.write Q.mem.fresh (some (Event.new ts inc il dev)))
              (ts.advance inc) Q.lastIns = some 1) := by
  obtain ⟨Q, l, hrun, hinv, hlast, hfrom⟩ := run_mono ops _ _ inv_empty rfl
    (fun c hc => by simp at hc) hmono
  refine ⟨Q, l, hrun, isChain_nodes Q l hinv.chain, hlast, ?_⟩
  intro ts inc il dev hm2
  have hT : ∀ c ∈ l, c.2.time.ticks < (ts.advance inc).ticks := by
    intro c hc
    rcases hfrom c hc with ⟨d, hd, -⟩ | h
    · simp at hd
    · exact hm2 _ h
  obtain ⟨Q2, h1, -, h2, h3⟩ := insertQ_nodes Q l hinv ts inc il dev
  rw [insNodes_append _ _ _ _ _ _ hT] at h2
  refine ⟨Q2, _, ?_, h1, h2, ?_, ?_, ?_⟩
  · intro c hc
    have := hT c hc
    simp only [TimeStamp.LessEq, decide_eq_false_iff_not]
    omega
  · rw [List.map_append, setLastNext_map nodeData (fun _ _ => rfl)]
    rfl
  · rw [h3, lastPtr_concat]
  · intro h hh
    rcases List.eq_nil_or_concat l with rfl | ⟨A, cl, rfl⟩
    · have : Q.head = none := hinv.chain
      rw [this] at hh
      cases hh
    · rw [List.concat_eq_append] at hinv hlast hT
      rw [lastPtr_concat] at hlast
      have hfresh := fresh_not_mem _ _ _ hinv.chain
      have hch := isChain_frame _ _ _ Q.mem.fresh (some (Event.new ts inc il dev))
        hinv.chain hfresh
      have := fastPath_walk _ (ts.advance inc) _ A cl h hch (hT cl (by simp))
      rw [hlast]
      exact ⟨by simp, this.1, this.2⟩

/-- Instance of C15: after insert t=1, insert t=2, RemoveHead (times increasing),
`lastIns` is the tail of the chain and inserting t=3 runs the loop body once. -/
theorem C15_monotonic_fast_path_witness :
    (insertTimes [Op.insert ⟨0⟩ 1 0 0, Op.insert ⟨0⟩ 2 0 0, Op.removeHead]).Pairwise
        (fun a b => a < b) ∧
    ∃ Q ns, run [Op.insert ⟨0⟩ 1 0 0, Op.insert ⟨0⟩ 2 0 0, Op.removeHead]
        EventQueue.empty = some Q ∧ Q.nodes = some ns ∧ Q.lastIns = lastPtr ns ∧
      walkBodyCount ((Q.mem.write Q.mem.fresh (some (Event.new ⟨0⟩ 3 0 0))).length + 1)
        (Q.mem.write Q.mem.fresh (some (Event.new ⟨0⟩ 3 0 0))) ⟨3⟩ Q.lastIns = some 1 := by
  have hp : (insertTimes [Op.insert ⟨0⟩ 1 0 0, Op.insert ⟨0⟩ 2 0 0, Op.removeHead]).Pairwise
      (fun a b => a < b) := by
    simp [insertTimes, TimeStamp.advance]
  obtain ⟨Q, ns, h1, h2, h3, h4⟩ :=
    C15_monotonic_fast_path [Op.insert ⟨0⟩ 1 0 0, Op.insert ⟨0⟩ 2 0 0, Op.removeHead] hp
  obtain ⟨-, -, -, -, -, -, -, h5⟩ := h4 ⟨0⟩ 3 0 0 (by
    simp [insertTimes, TimeStamp.advance])
  have hQ : some Q = some { mem := [none, some ⟨⟨2⟩, 0, 0, none⟩], head := some 1,
                            lastIns := some 1 } := h1.symm.trans rfl
  have hQ := Option.some.inj hQ
  have hh : Q.head = some 1 := by rw [hQ]
  exact ⟨hp, Q, ns, h1, h2, h3, (h5 1 hh).2.2⟩

end Umps
